import Mathlib

/-!
Verification development for the pronto term-graph engine
(`pronto/ontology.py`, `pronto/term.py`).

Python objects are modelled through an explicit heap: a `Term` object lives at
an address (`Addr`), a store (`Ontology`) maps identifiers to addresses, and a
relation endpoint (`PyVal`) is either a bare identifier string or a reference
to a heap object.  This captures Python object identity (addresses), aliasing,
and cyclic object graphs, which the pipeline (adoption, reference resolution,
recursive traversal, JSON serialization) manipulates.
-/

set_option autoImplicit false

namespace Pronto

/-- Address of a Python object in the modelled heap. -/
abbrev Addr := Nat

/-- Value usable as a relation endpoint: either a bare identifier string or a
reference to a `Term` object on the heap (`isinstance(x, Term)` in the source
distinguishes exactly these two cases). -/
inductive PyVal where
  | str (s : String)
  | ref (a : Addr)
  deriving DecidableEq, Repr

/-- Value of an entry of `Term.other`: a single string or a list of strings
(the obo serializer distinguishes `isinstance(v, list)`). -/
inductive OtherVal where
  | single (s : String)
  | multi (xs : List String)
  deriving DecidableEq, Repr

/-- Model of a `pronto.term.Term` object (`Term.__init__` in term.py):
`id`, `name`, `desc`, `relations`, `other`.  `relations` is an association
list (Python dict: insertion ordered) from relation kind to the endpoint
list.  `parentsCache` models the `functools.lru_cache(None)` wrapped around
the `parents` property (keyed on `self`, hence one slot per object); it is
`none` until `parents` is first accessed. -/
structure TermObj where
  id : String
  name : String
  desc : String
  relations : List (String × List PyVal) := []
  other : List (String × OtherVal) := []
  parentsCache : Option (List PyVal) := none
  deriving DecidableEq, Repr

/-- Heap of Term objects, keyed by address. -/
abbrev Heap := List (Addr × TermObj)

/-- Model of a `pronto.ontology.Ontology`: the primary map `self.terms`
(Python dict from identifier to Term object, insertion ordered) plus the heap
of objects and a fresh-address counter for new allocations. -/
structure Ontology where
  terms : List (String × Addr)
  heap : Heap
  nextAddr : Addr
  deriving DecidableEq, Repr

/-- First-match lookup in the primary map (Python dict lookup). -/
def lookupStr (x : String) : List (String × Addr) → Option Addr
  | [] => none
  | (k, a) :: rest => if k = x then some a else lookupStr x rest

/-- Read the object at an address. -/
def heapGet (h : Heap) (a : Addr) : Option TermObj :=
  match h with
  | [] => none
  | (b, t) :: rest => if b = a then some t else heapGet rest a

/-- Overwrite the object at an address (in-place mutation of a Python
object: every entry carrying this address is updated). -/
def heapSet : Heap → Addr → TermObj → Heap
  | [], _, _ => []
  | (b, u) :: rest, a, t => (if b = a then (a, t) else (b, u)) :: heapSet rest a t

/-- Option-valued map over a list, failing when any element fails
(`List.mapM` specialized to `Option`). -/
def omapM {α β : Type} (f : α → Option β) : List α → Option (List β)
  | [] => some []
  | x :: xs =>
    match f x, omapM f xs with
    | some y, some ys => some (y :: ys)
    | _, _ => none

/-- Option-valued left fold over a list, failing when any step fails
(`List.foldlM` specialized to `Option`). -/
def ofoldlM {α β : Type} (f : β → α → Option β) : β → List α → Option β
  | b, [] => some b
  | b, x :: xs =>
    match f b x with
    | none => none
    | some m => ofoldlM f m xs

/-- First-match lookup of a relation kind in a relations dict. -/
def relLookup : List (String × List PyVal) → String → Option (List PyVal)
  | [], _ => none
  | (k', vs) :: rest, k => if k' = k then some vs else relLookup rest k

/-- Python `relkey in term.relations.keys()` / `term.relations[relkey]`. -/
def getRel (t : TermObj) (k : String) : Option (List PyVal) :=
  relLookup t.relations k

/-- Append one endpoint to the list stored under kind `k`
(`relations[rel].append(child)`); no-op if the kind is absent. -/
def appendAt (k : String) (v : PyVal) : List (String × List PyVal) → List (String × List PyVal)
  | [] => []
  | (k', vs) :: rest => if k' = k then (k', vs ++ [v]) :: rest else (k', vs) :: appendAt k v rest

/-- Python `relations[rel] = TermList()` when `rel` is a Python-dict-fresh
key: the new key is appended at the end of the dict order. -/
def addEmptyRel (t : TermObj) (k : String) : TermObj :=
  { t with relations := t.relations ++ [(k, [])] }

/-- Append an endpoint to an existing relation kind of a term. -/
def appendRel (t : TermObj) (k : String) (v : PyVal) : TermObj :=
  { t with relations := appendAt k v t.relations }

/-- Term object synthesized by reference resolution for a dangling
identifier: `pronto.term.Term(x, '', '')`. -/
def placeholderObj (x : String) : TermObj :=
  { id := x, name := "", desc := "" }

/-! ## TermList (term.py, class TermList) -/

/-- Python `isinstance(term, Term)`. -/
def isTerm : PyVal → Bool
  | .ref _ => true
  | .str _ => false

/-- Model of `TermList._check_content`: true when every element is a Term. -/
def checkContent (xs : List PyVal) : Bool :=
  xs.all isTerm

/-- One positional argument to `TermList.__init__`: a Python list, a set, a
tuple, or an atomic value (a Term or a string). -/
inductive TLArg where
  | pylist (xs : List PyVal)
  | pyset (xs : List PyVal)
  | pytuple (xs : List PyVal)
  | atom (v : PyVal)
  deriving DecidableEq, Repr

/-- Did a positional argument pass `isinstance(term, Term)`?  Only an atomic
Term reference does; lists, sets, tuples and strings do not. -/
def argIsTerm : TLArg → Bool
  | .atom (.ref _) => true
  | _ => false

/-- Element stored for a positional argument in the two-or-more-arguments
branch (`self.terms = [term for term in elements]`).  Container arguments are
stored as-is in Python; they can only reach the `TypeError` outcome, so any
stand-in value suffices for them here. -/
def argVal : TLArg → PyVal
  | .atom v => v
  | _ => .str ""

/-- Outcome of `TermList.__init__`. -/
inductive TLInitResult where
  | ok (terms : List PyVal)
  | typeError
  | unbound
  deriving DecidableEq, Repr

/-- Model of `TermList.__init__(*elements)` followed by `_check_content`:

* no argument: `self.terms = []`;
* one argument that is a list: copy; one that is a set: `list(...)` of it;
* one argument of any other shape: **no** branch assigns `self.terms`, so the
  `for term in self.terms` inside `_check_content` hits the
  `__getattr__` fallback on the unassigned attribute (outcome `unbound`,
  see `tlGetTerms`);
* two or more arguments: `self.terms = [term for term in elements]`.

`_check_content` raises `TypeError` when an element fails
`isinstance(term, Term)`. -/
def termListInit : List TLArg → TLInitResult
  | [] => .ok []
  | [.pylist xs] => if checkContent xs then .ok xs else .typeError
  | [.pyset xs] => if checkContent xs then .ok xs else .typeError
  | [_] => .unbound
  | args => if args.all argIsTerm then .ok (args.map argVal) else .typeError

/-- Fuel-indexed model of looking up the `terms` attribute on a `TermList`
whose storage may be unassigned.  When `self.terms` was assigned, the lookup
returns it.  When it was not, Python calls `__getattr__('terms')`, whose
fallback `getattr(self.terms, attr)` re-evaluates `self.terms` and so
re-enters the same lookup: the recursion consumes fuel and never produces a
value. -/
def tlGetTerms : Nat → Option (List PyVal) → Option (List PyVal)
  | _, some ts => some ts
  | 0, none => none
  | Nat.succ f, none => tlGetTerms f none

/-! ## parents / children (term.py) -/

/-- Body of the `parents` property: concatenate the endpoint lists under the
kinds `is_a`, `is_part`, `part_of`, in that order, skipping absent kinds. -/
def parentsCompute (t : TermObj) : List PyVal :=
  (match getRel t "is_a" with | some vs => vs | none => []) ++
  (match getRel t "is_part" with | some vs => vs | none => []) ++
  (match getRel t "part_of" with | some vs => vs | none => [])

/-- Access to the `parents` property through its `functools.lru_cache(None)`
wrapper: return the cached value when present, otherwise compute from the
current relations and fill the cache.  Returns the value paired with the
updated object. -/
def parentsAccess (t : TermObj) : List PyVal × TermObj :=
  match t.parentsCache with
  | some v => (v, t)
  | none => (parentsCompute t, { t with parentsCache := some (parentsCompute t) })

/-- Body of the `children` property: concatenate the endpoint lists under the
kinds `has_part`, `can_be`, in that order.  This property carries no cache
(the memoize decorator is commented out in the source), so every access
recomputes from the current relations. -/
def childrenCompute (t : TermObj) : List PyVal :=
  (match getRel t "has_part" with | some vs => vs | none => []) ++
  (match getRel t "can_be" with | some vs => vs | none => [])

/-! ## Adoption pass (ontology.py, Ontology._adopt) -/

/-- Lexicographic order on character lists by code point. -/
def charListLe : List Char → List Char → Bool
  | [], _ => true
  | _ :: _, [] => false
  | c :: cs, d :: ds => if c < d then true else if d < c then false else charListLe cs ds

/-- Lexicographic order on strings by code point, the order Python `sorted`
uses on identifiers. -/
def strLe (a b : String) : Bool :=
  charListLe a.data b.data

/-- Insertion of a string into a sorted list (ascending). -/
def insStr (x : String) : List String → List String
  | [] => [x]
  | y :: ys => if strLe x y then x :: y :: ys else y :: insStr x ys

/-- Model of Python `sorted` on a list of strings (insertion sort). -/
def sortStr : List String → List String
  | [] => []
  | x :: xs => insStr x (sortStr xs)

/-- Forward-edge harvest of `_adopt` for one term: for each forward kind
block, in source order `is_a`, `part_of`, `is_part`, one tuple
`(parent_endpoint, inverse_kind, term.id)` per endpoint.  The inverse kinds
`can_be`, `has_part`, `part_of` are hard-coded in the source. -/
def edgesOf (t : TermObj) : List (PyVal × String × String) :=
  (match getRel t "is_a" with
   | some ps => ps.map fun p => (p, "can_be", t.id)
   | none => []) ++
  (match getRel t "part_of" with
   | some ps => ps.map fun p => (p, "has_part", t.id)
   | none => []) ++
  (match getRel t "is_part" with
   | some ps => ps.map fun p => (p, "part_of", t.id)
   | none => [])

/-- The relationship list collected by the first loop of `_adopt`:
`for term in self` iterates the store in ascending identifier order
(`Ontology.__iter__`), and each term contributes `edgesOf`.  `none` marks a
store whose primary map points at a missing heap object, a state no Python
run can produce. -/
def collect (o : Ontology) : Option (List (PyVal × String × String)) := do
  let objs ← omapM (fun k => (lookupStr k o.terms).bind (heapGet o.heap))
    (sortStr (o.terms.map Prod.fst))
  pure (objs.map edgesOf).flatten

/-- Second loop of `_adopt`, one step per collected tuple:

* `if parent in self` (`Ontology.__contains__`): a string is tested against
  the primary-map keys; a Term reference is tested by its `id` attribute;
* when the test succeeds with a string parent, `self[parent]` fetches the
  parent's object, an absent inverse kind is first bound to an empty
  `TermList()`, and `relations[rel].append(child)` appends the child
  identifier (the `TermList.append` attribute is forwarded to the raw list,
  so no content check runs);
* when the test succeeds with a Term-reference parent, `self[parent]` is
  `self.terms[item]` with a Term key and raises `KeyError` (modelled `none`);
* when the test fails, the tuple is dropped. -/
def adoptStep (st : Ontology) (r : PyVal × String × String) : Option Ontology :=
  match r with
  | (.str p, rel, child) =>
    match lookupStr p st.terms with
    | none => some st
    | some pa =>
      match heapGet st.heap pa with
      | none => none
      | some t =>
        let t1 := if (getRel t rel).isNone then addEmptyRel t rel else t
        some { st with heap := heapSet st.heap pa (appendRel t1 rel (.str child)) }
  | (.ref a, _, _) =>
    match heapGet st.heap a with
    | none => none
    | some t => if (lookupStr t.id st.terms).isSome then none else some st

/-- Model of `Ontology._adopt`: collect the forward-edge tuples, then apply
them in order. -/
def adopt (o : Ontology) : Option Ontology := do
  let rels ← collect o
  ofoldlM adoptStep o rels

/-! ## Reference-resolution pass (ontology.py, Ontology._reference) -/

/-- Resolution of one relation endpoint, threading the heap and the
fresh-address counter:

* a string found in the primary map becomes a reference to that store Term
  (`self.terms[x] if x in self.terms.keys()`);
* any other non-Term value becomes a reference to a freshly allocated
  placeholder `Term(x, '', '')`;
* a value that is already a Term is kept
  (a Term object never equals a string key, so the first test fails on it). -/
def resolveVal (tm : List (String × Addr)) : Heap × Nat → PyVal → (Heap × Nat) × PyVal
  | (h, n), .str x =>
    match lookupStr x tm with
    | some a => ((h, n), .ref a)
    | none => ((h ++ [(n, placeholderObj x)], n + 1), .ref n)
  | (h, n), .ref a => ((h, n), .ref a)

/-- Resolution of a whole endpoint list, left to right. -/
def resolveVals (tm : List (String × Addr)) : Heap × Nat → List PyVal → (Heap × Nat) × List PyVal
  | s, [] => (s, [])
  | s, v :: vs =>
    let (s1, v') := resolveVal tm s v
    let (s2, vs') := resolveVals tm s1 vs
    (s2, v' :: vs')

/-- Resolution of every relation entry of one term, in dict order; each
resolved list is re-wrapped in a `TermList` and assigned back under the same
kind (all resolved endpoints are Terms, so `_check_content` passes). -/
def resolveRels (tm : List (String × Addr)) :
    Heap × Nat → List (String × List PyVal) → (Heap × Nat) × List (String × List PyVal)
  | s, [] => (s, [])
  | s, (k, vs) :: rest =>
    let (s1, vs') := resolveVals tm s vs
    let (s2, rest') := resolveRels tm s1 rest
    (s2, (k, vs') :: rest')

/-- One iteration of the outer loop of `_reference`: resolve every relation
list of the term registered under one primary-map entry and write the object
back.  A dangling primary-map address (impossible in Python) is skipped. -/
def referenceStep (tm : List (String × Addr)) (s : Heap × Nat) (entry : String × Addr) :
    Heap × Nat :=
  match heapGet s.1 entry.2 with
  | none => s
  | some t =>
    let (s1, rels') := resolveRels tm s t.relations
    (heapSet s1.1 entry.2 { t with relations := rels' }, s1.2)

/-- Model of `Ontology._reference`: iterate `self.terms.items()` in dict
order; the primary map itself is never modified. -/
def reference (o : Ontology) : Ontology :=
  let s := o.terms.foldl (referenceStep o.terms) (o.heap, o.nextAddr)
  { o with heap := s.1, nextAddr := s.2 }

/-! ## Lookup (ontology.py, Ontology.__getitem__) -/

/-- Model of `Ontology.__getitem__`: `self.terms[item]`; `none` models the
`KeyError` raised when the identifier is absent from the primary map. -/
def getItem (o : Ontology) (i : String) : Option Addr :=
  lookupStr i o.terms

/-- Does any object on the heap carry the given identifier?  (Used to state
that a placeholder exists without being reachable through `__getitem__`.) -/
def heapHasId (h : Heap) (x : String) : Bool :=
  h.any fun p => p.2.id = x

/-! ## Recursive descendant traversal (term.py, Term.rchildren) -/

/-- Addresses of the direct children of the object at `a`: the `children`
property is recomputed from the current relations; recursing into a child
(`child.rchildren(...)`) requires the child to be a Term object, and the
final `TermList(set(rchildren))` content check requires the same, so a bare
string child makes the call fail (`none`). -/
def childAddrs (h : Heap) (a : Addr) : Option (List Addr) := do
  let t ← heapGet h a
  omapM (fun v =>
    match v with
    | .ref c => some c
    | .str _ => none) (childrenCompute t)

/-- Deduplication performed by `TermList(set(rchildren))`: the set of Term
objects compares by object identity (class `Term` defines neither `__eq__`
nor `__hash__`), i.e. by address.  A Python set iterates in an unspecified
order; this model fixes one canonical order. -/
def dedupAddrs : List Addr → List Addr
  | [] => []
  | x :: xs => let r := dedupAddrs xs; if x ∈ r then r else x :: r

/-- List-level loop of `rchildren`
(`for child in self.children: rchildren.extend(child.rchildren(...))`),
parameterized by the recursive call on a single child. -/
def rcList (g : Addr → Option (List Addr)) : List Addr → Option (List Addr)
  | [] => some []
  | c :: cs =>
    match g c, rcList g cs with
    | some r, some rs => some (r ++ rs)
    | _, _ => none

/-- Fuel-indexed model of `Term.rchildren(level, intermediate)`.  The source
has no cycle guard and recurses with `level - 1`; starting from `-1` the
`level == 0` test never fires, so on a cyclic children-graph every amount of
fuel is exhausted (`none` = the Python call never returns, it dies of
RecursionError).  `if self.children:` is always true in Python (TermList
defines neither `__bool__` nor `__len__`), and with an empty children list
the branch body is a no-op, so it is modelled as always taken. -/
def rchildrenFuel (h : Heap) : Nat → Addr → Int → Bool → Option (List Addr)
  | 0, _, _, _ => none
  | Nat.succ f, a, level, inter =>
    if level = 0 then some [] else
      match childAddrs h a with
      | none => none
      | some cs =>
        match rcList (fun c => rchildrenFuel h f c (level - 1) inter) cs with
        | none => none
        | some rest =>
          some (dedupAddrs ((if inter || level = 1 then cs else []) ++ rest))

/-! ## JSON serialization (term.py Term.__deref__, ontology.py Ontology.json) -/

/-- JSON value produced by `json.dumps`. -/
inductive Json where
  | str (s : String)
  | arr (xs : List Json)
  | obj (entries : List (String × Json))
  deriving Repr

/-- Insertion of a keyed pair into a list sorted by key. -/
def insPair {α : Type} (p : String × α) : List (String × α) → List (String × α)
  | [] => [p]
  | q :: qs => if strLe p.1 q.1 then p :: q :: qs else q :: insPair p qs

/-- Sorting of dict entries by key, as `json.dumps(..., sort_keys=True)`
renders every object. -/
def sortPairs {α : Type} : List (String × α) → List (String × α)
  | [] => []
  | p :: ps => insPair p (sortPairs ps)

/-- The `id` attribute of one endpoint, as read by the `TermList.id`
projection inside `__deref__` (`{k: v.id for k, v in self.relations.items()}`):
a Term reference yields the referenced object's identifier; a bare string has
no `id` attribute and raises `AttributeError` (`none`). -/
def valId (h : Heap) : PyVal → Option String
  | .ref a => (heapGet h a).map TermObj.id
  | .str _ => none

/-- JSON rendering of the `other` mapping (plain strings and lists are
serialized natively by `json.dumps`). -/
def otherJson (ov : List (String × OtherVal)) : Json :=
  .obj (sortPairs (ov.map fun p =>
    (p.1, match p.2 with
          | .single s => Json.str s
          | .multi xs => Json.arr (xs.map Json.str))))

/-- One rendered entry of the `relations` dict of `__deref__`: the kind
mapped to the array of endpoint identifiers (`v.id` on the TermList). -/
def relEntryJson (h : Heap) (p : String × List PyVal) : Option (String × Json) := do
  let ids ← omapM (valId h) p.2
  pure (p.1, Json.arr (ids.map Json.str))

/-- JSON rendering of the `relations` entry of `__deref__`: each kind maps to
the list of endpoint identifiers. -/
def relationsJson (h : Heap) (rels : List (String × List PyVal)) : Option Json := do
  let entries ← omapM (relEntryJson h) (sortPairs rels)
  pure (.obj entries)

/-- Model of `Term.__deref__` as rendered by `json.dumps(..., sort_keys=True)`:
an object with exactly the keys `desc`, `id`, `name`, `other`, `relations`
(key order is the sorted order). -/
def derefJson (h : Heap) (t : TermObj) : Option Json := do
  let r ← relationsJson h t.relations
  pure (.obj [("desc", .str t.desc), ("id", .str t.id), ("name", .str t.name),
              ("other", otherJson t.other), ("relations", r)])

/-- One rendered entry of the top-level dict: the identifier mapped to the
`__deref__` rendering of the stored Term. -/
def entryJson (h : Heap) (p : String × Addr) : Option (String × Json) := do
  let t ← heapGet h p.2
  let j ← derefJson h t
  pure (p.1, j)

/-- Model of the `Ontology.json` property: `json.dumps(self.terms, ...,
default=lambda o: o.__deref__)` — an object keyed by identifier (keys
sorted), each value the `__deref__` rendering of the stored Term. -/
def ontologyJson (o : Ontology) : Option Json := do
  let entries ← omapM (entryJson o.heap) (sortPairs o.terms)
  pure (.obj entries)

/-- Correspondence between one resolved relations entry and its rendered
form: same kind, value the array of the endpoints' identifiers. -/
def RelEntryJson (h : Heap) (r : String × List PyVal) (q : String × Json) : Prop :=
  q.1 = r.1 ∧ ∃ ids : List String, omapM (valId h) r.2 = some ids ∧
    q.2 = Json.arr (ids.map Json.str)

/-- Correspondence between one primary-map entry of a resolved store and
its rendered top-level JSON entry: key is the identifier, value is an
object with exactly the fields `desc`, `id`, `name`, `other`, `relations`
(sorted), whose `relations` maps each kind to the array of endpoint
identifiers only. -/
def EntryJson (h : Heap) (e : String × Addr) (p : String × Json) : Prop :=
  p.1 = e.1 ∧ ∃ t rels, heapGet h e.2 = some t ∧ p.2 = Json.obj
    [("desc", Json.str t.desc), ("id", Json.str t.id), ("name", Json.str t.name),
     ("other", otherJson t.other), ("relations", Json.obj rels)] ∧
    List.Forall₂ (RelEntryJson h) (sortPairs t.relations) rels

/-! ## Well-formedness -/

/-- Well-formedness of a store state, true of every state a Python run can
reach: primary-map keys are distinct (dict), primary-map addresses are
distinct objects, every primary-map entry points at a live object whose `id`
is the key, heap keys are distinct and below the allocation counter. -/
def wfOnt (o : Ontology) : Bool :=
  (o.terms.map Prod.fst).Nodup &&
  (o.terms.map Prod.snd).Nodup &&
  (o.heap.map Prod.fst).Nodup &&
  o.heap.all (fun p => p.1 < o.nextAddr) &&
  o.terms.all (fun p =>
    match heapGet o.heap p.2 with
    | some t => t.id = p.1
    | none => false)

/-- Every relation endpoint of every stored term is a live Term reference
(the state of a store after reference resolution). -/
def resolvedOnt (o : Ontology) : Bool :=
  o.terms.all fun p =>
    match heapGet o.heap p.2 with
    | none => false
    | some t => t.relations.all fun r => r.2.all fun v =>
        match v with
        | .ref a => (heapGet o.heap a).isSome
        | .str _ => false

/-! ## Specification predicates -/

/-- The inverse-kind table hard-coded in the three blocks of `_adopt`:
forward `is_a` begets `can_be`, forward `part_of` begets `has_part`, and
forward `is_part` begets `part_of`. -/
def invTable : List (String × String) :=
  [("is_a", "can_be"), ("part_of", "has_part"), ("is_part", "part_of")]

/-- Correspondence between one pre-resolution endpoint and its
post-resolution replacement, stated against the primary map `tm`, the
pre-resolution allocation bound `m`, and the post-resolution heap `h'`:

* a string identifier found in the primary map becomes a reference to the
  store's own Term for it;
* a string identifier absent from the primary map becomes a reference to a
  freshly allocated (address at least `m`) placeholder `Term(x, '', '')`;
* an endpoint that already is a Term reference is left unchanged. -/
def resolvesTo (tm : List (String × Addr)) (m : Nat) (h' : Heap) : PyVal → PyVal → Prop
  | .str x, v' =>
    (∀ a, lookupStr x tm = some a → v' = .ref a) ∧
    (lookupStr x tm = none →
      ∃ pa, m ≤ pa ∧ v' = .ref pa ∧ heapGet h' pa = some (placeholderObj x))
  | .ref a, v' => v' = .ref a

/-- Pointwise correspondence between a whole pre-resolution relations dict
and its post-resolution form: same kinds in the same order, endpoint lists
related pointwise by `resolvesTo`. -/
def RelsResolve (tm : List (String × Addr)) (m : Nat) (h' : Heap)
    (rels rels' : List (String × List PyVal)) : Prop :=
  List.Forall₂ (fun e e' => e.1 = e'.1 ∧ List.Forall₂ (resolvesTo tm m h') e.2 e'.2) rels rels'

/-- Invariant of a heap-and-counter state during resolution: every heap key
is below the counter, heap keys are distinct, and the counter is at least
the baseline `m`. -/
def WFS (m : Nat) (s : Heap × Nat) : Prop :=
  (∀ p ∈ s.1, p.1 < s.2) ∧ (s.1.map Prod.fst).Nodup ∧ m ≤ s.2

/-- Pure growth of a heap-and-counter state: the counter does not decrease,
objects at existing addresses are untouched, and every entry is an old one
or lives at a new address. -/
def Grows (s s' : Heap × Nat) : Prop :=
  s.2 ≤ s'.2 ∧ (∀ b, b < s.2 → heapGet s'.1 b = heapGet s.1 b) ∧
  (∀ p ∈ s'.1, p ∈ s.1 ∨ s.2 ≤ p.1)

/-- Post-condition of the resolution pass for one primary-map entry: the
object now stored at its address agrees with the original on every field
except `relations`, which corresponds pointwise to the original through
`resolvesTo`. -/
def Done (o : Ontology) (h' : Heap) (e : String × Addr) : Prop :=
  ∀ t, heapGet o.heap e.2 = some t →
    ∃ t', heapGet h' e.2 = some t' ∧ t'.id = t.id ∧ t'.name = t.name ∧
      t'.desc = t.desc ∧ t'.other = t.other ∧ t'.parentsCache = t.parentsCache ∧
      RelsResolve o.terms o.nextAddr h' t.relations t'.relations

/-! ## Concrete stores used by counterexamples and witnesses -/

/-- Store with a single term `A` whose `is_a` lists the absent identifier
`B` (the raw state a parser hands to `_adopt`). -/
def c1o : Ontology :=
  { terms := [("A", 0)],
    heap := [(0, { id := "A", name := "a", desc := "",
                   relations := [("is_a", [.str "B"])] })],
    nextAddr := 1 }

/-- The `A` object carrying a forward `is_a` edge to the identifier `B`. -/
def c4tA : TermObj :=
  { id := "A", name := "a", desc := "", relations := [("is_a", [.str "B"])] }

/-- Store with `A is_a B` and `B` present (pre-adoption). -/
def c4o : Ontology :=
  { terms := [("A", 0), ("B", 1)],
    heap := [(0, c4tA), (1, { id := "B", name := "b", desc := "" })],
    nextAddr := 2 }

/-- The `B` object of `c4o` after adoption: the inverse `can_be` edge holds
the bare identifier string `"A"`. -/
def c4tB : TermObj :=
  { id := "B", name := "b", desc := "", relations := [("can_be", [.str "A"])] }

/-- `c4o` after adoption. -/
def c4o2 : Ontology :=
  { terms := [("A", 0), ("B", 1)],
    heap := [(0, c4tA), (1, c4tB)],
    nextAddr := 2 }

/-- The `A` object referencing one present identifier (`B`) and one absent
identifier (`X`). -/
def c3tA : TermObj :=
  { id := "A", name := "a", desc := "", relations := [("is_a", [.str "B", .str "X"])] }

/-- Store whose term `A` references one present identifier (`B`) and one
absent identifier (`X`) — exercises both resolution outcomes. -/
def c3o : Ontology :=
  { terms := [("A", 0), ("B", 1)],
    heap := [(0, c3tA), (1, { id := "B", name := "b", desc := "" })],
    nextAddr := 2 }

/-- The `B` object before any `parents` access: empty relations, cold cache. -/
def c8tB0 : TermObj := { id := "B", name := "", desc := "" }

/-- The `B` object after its `parents` property was accessed once: the
lru_cache slot now permanently holds `[]`. -/
def c8tB1 : TermObj := { id := "B", name := "", desc := "", parentsCache := some [] }

/-- The `A` object with a forward `is_part` edge to `B`. -/
def c8tA : TermObj :=
  { id := "A", name := "", desc := "", relations := [("is_part", [.str "B"])] }

/-- Store state after `B.parents` has been accessed (cache filled) and
before adoption. -/
def c8o1 : Ontology :=
  { terms := [("A", 0), ("B", 1)], heap := [(0, c8tA), (1, c8tB1)], nextAddr := 2 }

/-- The `B` object after adoption: a `part_of` edge to `A` was appended to
its relations while the `parents` cache still holds the pre-adoption `[]`. -/
def c8tB2 : TermObj :=
  { id := "B", name := "", desc := "", relations := [("part_of", [.str "A"])],
    parentsCache := some [] }

/-- `c8o1` after adoption. -/
def c8o2 : Ontology :=
  { terms := [("A", 0), ("B", 1)], heap := [(0, c8tA), (1, c8tB2)], nextAddr := 2 }

/-- Store with a dangling reference `X` from its only term. -/
def c9o : Ontology :=
  { terms := [("A", 0)],
    heap := [(0, { id := "A", name := "a", desc := "",
                   relations := [("is_a", [.str "X"])] })],
    nextAddr := 1 }

/-- Cyclic children-graph: `A` and `B` are each other's `can_be` children
(the resolved shape two mutually related terms reach after adoption and
resolution). -/
def cycHeap : Heap :=
  [(0, { id := "A", name := "", desc := "", relations := [("can_be", [.ref 1])] }),
   (1, { id := "B", name := "", desc := "", relations := [("can_be", [.ref 0])] })]

/-- Heap in which the root reaches, through two different branches, two
distinct Term objects (addresses 3 and 4) that share the identifier `X` —
the shape produced when two terms both dangle on the same unknown
identifier and resolution synthesizes one placeholder per occurrence. -/
def c7h : Heap :=
  [(0, { id := "R", name := "", desc := "", relations := [("can_be", [.ref 1, .ref 2])] }),
   (1, { id := "A", name := "", desc := "", relations := [("can_be", [.ref 3])] }),
   (2, { id := "B", name := "", desc := "", relations := [("can_be", [.ref 4])] }),
   (3, { id := "X", name := "", desc := "" }),
   (4, { id := "X", name := "", desc := "" })]

/-- Resolved store whose only term is its own ancestor (`A is_a A`). -/
def c6o : Ontology :=
  { terms := [("A", 0)],
    heap := [(0, { id := "A", name := "a", desc := "d",
                   relations := [("is_a", [.ref 0])],
                   other := [("k", .single "v")] })],
    nextAddr := 1 }

/-! ## Basic lemmas about the heap and map helpers -/

theorem heapGet_mem {h : Heap} {a : Addr} {t : TermObj} (hg : heapGet h a = some t) :
    (a, t) ∈ h := by
  induction h with
  | nil => simp [heapGet] at hg
  | cons p rest ih =>
    obtain ⟨b, u⟩ := p
    by_cases hb : b = a
    · subst hb
      simp [heapGet] at hg
      simp [hg]
    · simp [heapGet, hb] at hg
      exact List.mem_cons_of_mem _ (ih hg)

theorem heapGet_eq_none_iff {h : Heap} {a : Addr} :
    heapGet h a = none ↔ ∀ p ∈ h, p.1 ≠ a := by
  induction h with
  | nil => simp [heapGet]
  | cons p rest ih =>
    obtain ⟨b, u⟩ := p
    by_cases hb : b = a
    · subst hb; simp [heapGet]
    · simp [heapGet, hb, ih]

theorem heapGet_append_left {h h2 : Heap} {a : Addr} {t : TermObj}
    (hg : heapGet h a = some t) : heapGet (h ++ h2) a = some t := by
  induction h with
  | nil => simp [heapGet] at hg
  | cons p rest ih =>
    obtain ⟨b, u⟩ := p
    by_cases hb : b = a
    · subst hb; simp [heapGet] at hg ⊢; exact hg
    · simp [heapGet, hb] at hg ⊢; exact ih hg

theorem heapGet_append_fresh {h : Heap} {a : Addr} {t : TermObj}
    (hnone : heapGet h a = none) : heapGet (h ++ [(a, t)]) a = some t := by
  induction h with
  | nil => simp [heapGet]
  | cons p rest ih =>
    obtain ⟨b, u⟩ := p
    by_cases hb : b = a
    · subst hb; simp [heapGet] at hnone
    · simp [heapGet, hb] at hnone ⊢; exact ih hnone

theorem heapGet_append_ne {h : Heap} {b : Addr} {t : TermObj} {a : Addr}
    (hab : b ≠ a) : heapGet (h ++ [(b, t)]) a = heapGet h a := by
  induction h with
  | nil => simp [heapGet, hab]
  | cons p rest ih =>
    obtain ⟨c, u⟩ := p
    by_cases hc : c = a
    · subst hc; simp [heapGet]
    · simp [heapGet, hc]; exact ih

theorem heapGet_cons_self (c : Addr) (t : TermObj) (rest : Heap) :
    heapGet ((c, t) :: rest) c = some t := by
  simp [heapGet]

theorem heapGet_cons_ne {c b : Addr} (hcb : c ≠ b) (t : TermObj) (rest : Heap) :
    heapGet ((c, t) :: rest) b = heapGet rest b := by
  simp [heapGet, hcb]

theorem heapSet_cons_self (c : Addr) (u : TermObj) (rest : Heap) (t : TermObj) :
    heapSet ((c, u) :: rest) c t = (c, t) :: heapSet rest c t := by
  simp [heapSet]

theorem heapSet_cons_ne {c a : Addr} (hca : c ≠ a) (u : TermObj) (rest : Heap) (t : TermObj) :
    heapSet ((c, u) :: rest) a t = (c, u) :: heapSet rest a t := by
  simp [heapSet, hca]

theorem heapGet_heapSet_ne {h : Heap} {a b : Addr} {t : TermObj} (hab : a ≠ b) :
    heapGet (heapSet h a t) b = heapGet h b := by
  induction h with
  | nil => rfl
  | cons p rest ih =>
    obtain ⟨c, u⟩ := p
    by_cases hc : c = a
    · subst hc
      rw [heapSet_cons_self, heapGet_cons_ne hab, heapGet_cons_ne hab]
      exact ih
    · rw [heapSet_cons_ne hc]
      by_cases hcb : c = b
      · subst hcb
        rw [heapGet_cons_self, heapGet_cons_self]
      · rw [heapGet_cons_ne hcb, heapGet_cons_ne hcb]
        exact ih

theorem heapGet_heapSet_self {h : Heap} {a : Addr} {t u : TermObj}
    (hg : heapGet h a = some u) : heapGet (heapSet h a t) a = some t := by
  induction h with
  | nil => simp [heapGet] at hg
  | cons p rest ih =>
    obtain ⟨c, v⟩ := p
    by_cases hc : c = a
    · subst hc
      rw [heapSet_cons_self, heapGet_cons_self]
    · rw [heapGet_cons_ne hc] at hg
      rw [heapSet_cons_ne hc, heapGet_cons_ne hc]
      exact ih hg

theorem heapSet_keys (h : Heap) (a : Addr) (t : TermObj) :
    (heapSet h a t).map Prod.fst = h.map Prod.fst := by
  induction h with
  | nil => rfl
  | cons p rest ih =>
    obtain ⟨c, v⟩ := p
    by_cases hc : c = a
    · subst hc
      rw [heapSet_cons_self, List.map_cons, List.map_cons, ih]
    · rw [heapSet_cons_ne hc, List.map_cons, List.map_cons, ih]

theorem heapGet_heapSet_isSome (h : Heap) (a b : Addr) (t : TermObj) :
    (heapGet (heapSet h a t) b).isSome = (heapGet h b).isSome := by
  by_cases hab : a = b
  · subst hab
    cases hg : heapGet h a with
    | none =>
      have hg' := heapGet_eq_none_iff.mp hg
      have hnone : heapGet (heapSet h a t) a = none := by
        rw [heapGet_eq_none_iff]
        intro p hp
        have hmem := List.mem_map_of_mem Prod.fst hp
        rw [heapSet_keys] at hmem
        obtain ⟨q, hq, hfst⟩ := List.mem_map.mp hmem
        exact hfst ▸ hg' q hq
      simp [hnone, hg]
    | some u => simp [heapGet_heapSet_self hg, hg]
  · simp [heapGet_heapSet_ne hab]

theorem heapSet_id {h : Heap} {a : Addr} {t : TermObj}
    (hnd : (h.map Prod.fst).Nodup) (hg : heapGet h a = some t) :
    heapSet h a t = h := by
  induction h with
  | nil => rfl
  | cons p rest ih =>
    obtain ⟨c, v⟩ := p
    simp only [List.map_cons, List.nodup_cons] at hnd
    by_cases hc : c = a
    · subst hc
      rw [heapGet_cons_self, Option.some.injEq] at hg
      subst hg
      have hfar : ∀ q ∈ rest, q.1 ≠ c := by
        intro q hq hqc
        exact hnd.1 (hqc ▸ List.mem_map_of_mem Prod.fst hq)
      have hrest : heapSet rest c v = rest := by
        clear ih hnd
        induction rest with
        | nil => rfl
        | cons q qs ihq =>
          obtain ⟨d, w⟩ := q
          have hd : d ≠ c := hfar (d, w) (List.mem_cons_self _ _)
          have hqs := ihq fun r hr => hfar r (List.mem_cons_of_mem _ hr)
          rw [heapSet_cons_ne hd, hqs]
      rw [heapSet_cons_self, hrest]
    · rw [heapGet_cons_ne hc] at hg
      rw [heapSet_cons_ne hc, ih hnd.2 hg]

theorem lookupStr_mem {tm : List (String × Addr)} {x : String} {a : Addr}
    (hl : lookupStr x tm = some a) : (x, a) ∈ tm := by
  induction tm with
  | nil => simp [lookupStr] at hl
  | cons p rest ih =>
    obtain ⟨k, b⟩ := p
    by_cases hk : k = x
    · subst hk
      simp [lookupStr] at hl
      simp [hl]
    · simp [lookupStr, hk] at hl
      exact List.mem_cons_of_mem _ (ih hl)

theorem lookupStr_eq_none_iff {tm : List (String × Addr)} {x : String} :
    lookupStr x tm = none ↔ ∀ p ∈ tm, p.1 ≠ x := by
  induction tm with
  | nil => simp [lookupStr]
  | cons p rest ih =>
    obtain ⟨k, b⟩ := p
    by_cases hk : k = x
    · subst hk; simp [lookupStr]
    · simp [lookupStr, hk, ih]

theorem relLookup_append_of_some {rels : List (String × List PyVal)} {l2 : List (String × List PyVal)}
    {k : String} {vs : List PyVal} (hl : relLookup rels k = some vs) :
    relLookup (rels ++ l2) k = some vs := by
  induction rels with
  | nil => simp [relLookup] at hl
  | cons p rest ih =>
    obtain ⟨k', vs'⟩ := p
    by_cases hk : k' = k
    · subst hk; simp [relLookup] at hl ⊢; exact hl
    · simp [relLookup, hk] at hl ⊢; exact ih hl

theorem relLookup_append_fresh {rels : List (String × List PyVal)} {k : String}
    {vs : List PyVal} (hnone : relLookup rels k = none) :
    relLookup (rels ++ [(k, vs)]) k = some vs := by
  induction rels with
  | nil => simp [relLookup]
  | cons p rest ih =>
    obtain ⟨k', vs'⟩ := p
    by_cases hk : k' = k
    · subst hk; simp [relLookup] at hnone
    · simp [relLookup, hk] at hnone ⊢; exact ih hnone

theorem relLookup_appendAt_self {rels : List (String × List PyVal)} {k : String}
    {vs : List PyVal} {v : PyVal} (hl : relLookup rels k = some vs) :
    relLookup (appendAt k v rels) k = some (vs ++ [v]) := by
  induction rels with
  | nil => simp [relLookup] at hl
  | cons p rest ih =>
    obtain ⟨k', vs'⟩ := p
    by_cases hk : k' = k
    · subst hk; simp [relLookup] at hl; simp [appendAt, relLookup, hl]
    · simp [relLookup, hk] at hl
      simp [appendAt, hk, relLookup, ih hl]

theorem relLookup_appendAt_ne {rels : List (String × List PyVal)} {k k' : String}
    {v : PyVal} (hk : k ≠ k') :
    relLookup (appendAt k v rels) k' = relLookup rels k' := by
  induction rels with
  | nil => simp [appendAt, relLookup]
  | cons p rest ih =>
    obtain ⟨k0, vs0⟩ := p
    by_cases h0 : k0 = k
    · subst h0
      simp [appendAt, relLookup, hk]
    · simp [appendAt, h0, relLookup]
      by_cases h1 : k0 = k'
      · simp [h1]
      · simp [h1, ih]

theorem mem_insStr {y x : String} {l : List String} :
    y ∈ insStr x l ↔ y = x ∨ y ∈ l := by
  induction l with
  | nil => simp [insStr]
  | cons z zs ih =>
    by_cases hz : strLe x z
    · simp [insStr, hz]
    · simp [insStr, hz, ih]
      tauto

theorem mem_sortStr {y : String} {l : List String} : y ∈ sortStr l ↔ y ∈ l := by
  induction l with
  | nil => simp [sortStr]
  | cons z zs ih => simp [sortStr, mem_insStr, ih]

theorem mem_insPair {α : Type} {q p : String × α} {l : List (String × α)} :
    q ∈ insPair p l ↔ q = p ∨ q ∈ l := by
  induction l with
  | nil => simp [insPair]
  | cons r rs ih =>
    by_cases hr : strLe p.1 r.1
    · simp [insPair, hr]
    · simp [insPair, hr, ih]
      tauto

theorem mem_sortPairs {α : Type} {q : String × α} {l : List (String × α)} :
    q ∈ sortPairs l ↔ q ∈ l := by
  induction l with
  | nil => simp [sortPairs]
  | cons p ps ih => simp [sortPairs, mem_insPair, ih]

theorem nodup_dedupAddrs (l : List Addr) : (dedupAddrs l).Nodup := by
  induction l with
  | nil => simp [dedupAddrs]
  | cons x xs ih =>
    simp only [dedupAddrs]
    by_cases hx : x ∈ dedupAddrs xs
    · simp [hx, ih]
    · simp [hx, List.nodup_cons, ih]

/-! ## Option-monad traversal lemmas -/

theorem omapM_some_of_mem {α β : Type} {f : α → Option β} {l : List α} {l' : List β}
    (hm : omapM f l = some l') {x : α} (hx : x ∈ l) : ∃ y ∈ l', f x = some y := by
  induction l generalizing l' with
  | nil => simp at hx
  | cons z zs ih =>
    cases hz : f z with
    | none => simp [omapM, hz] at hm
    | some y =>
      cases hzs : omapM f zs with
      | none => simp [omapM, hz, hzs] at hm
      | some ys =>
        simp only [omapM, hz, hzs, Option.some.injEq] at hm
        subst hm
        rcases List.mem_cons.mp hx with hxz | hxzs
        · subst hxz; exact ⟨y, List.mem_cons_self _ _, hz⟩
        · obtain ⟨w, hw, hfw⟩ := ih hzs hxzs
          exact ⟨w, List.mem_cons_of_mem _ hw, hfw⟩

theorem omapM_some_of_forall {α β : Type} {f : α → Option β} {l : List α}
    (hf : ∀ x ∈ l, (f x).isSome) : ∃ l', omapM f l = some l' := by
  induction l with
  | nil => exact ⟨[], rfl⟩
  | cons z zs ih =>
    obtain ⟨ys, hys⟩ := ih fun x hx => hf x (List.mem_cons_of_mem _ hx)
    cases hz : f z with
    | none => have := hf z (List.mem_cons_self _ _); simp [hz] at this
    | some y => exact ⟨y :: ys, by simp [omapM, hz, hys]⟩

theorem omapM_forall_mem {α β : Type} {f : α → Option β} {l : List α} {l' : List β}
    (hm : omapM f l = some l') {P : β → Prop}
    (hP : ∀ x ∈ l, ∀ y, f x = some y → P y) : ∀ y ∈ l', P y := by
  induction l generalizing l' with
  | nil =>
    simp only [omapM, Option.some.injEq] at hm
    subst hm; simp
  | cons z zs ih =>
    cases hz : f z with
    | none => simp [omapM, hz] at hm
    | some y =>
      cases hzs : omapM f zs with
      | none => simp [omapM, hz, hzs] at hm
      | some ys =>
        simp only [omapM, hz, hzs, Option.some.injEq] at hm
        subst hm
        intro w hw
        rcases List.mem_cons.mp hw with hwy | hwys
        · subst hwy; exact hP z (List.mem_cons_self _ _) w hz
        · exact ih hzs (fun x hx => hP x (List.mem_cons_of_mem _ hx)) w hwys

theorem ofoldlM_append {α β : Type} (f : β → α → Option β) (b : β)
    (l1 l2 : List α) :
    ofoldlM f b (l1 ++ l2) = (ofoldlM f b l1).bind fun m => ofoldlM f m l2 := by
  induction l1 generalizing b with
  | nil => simp [ofoldlM]
  | cons x xs ih =>
    simp only [List.cons_append, ofoldlM]
    cases f b x with
    | none => simp
    | some m => simp [ih]

theorem omapM_forall₂ {α β : Type} {f : α → Option β} :
    ∀ {l : List α} {l' : List β}, omapM f l = some l' →
    List.Forall₂ (fun x y => f x = some y) l l' := by
  intro l
  induction l with
  | nil =>
    intro l' hm
    injection hm with hm
    rw [← hm]
    exact List.Forall₂.nil
  | cons z zs ih =>
    intro l' hm
    cases hz : f z with
    | none => simp [omapM, hz] at hm
    | some y =>
      cases hzs : omapM f zs with
      | none => simp [omapM, hz, hzs] at hm
      | some ys =>
        simp only [omapM, hz, hzs, Option.some.injEq] at hm
        rw [← hm]
        exact List.Forall₂.cons hz (ih hzs)

theorem ofoldlM_cons {α β : Type} (f : β → α → Option β) (b : β) (x : α)
    (xs : List α) :
    ofoldlM f b (x :: xs) = (f b x).bind fun m => ofoldlM f m xs := by
  cases h : f b x <;> simp [ofoldlM, h]

theorem ofoldlM_invariant {α β : Type} {f : β → α → Option β} {l : List α}
    {b r : β} (hm : ofoldlM f b l = some r) {P : β → Prop}
    (hstep : ∀ s x s', x ∈ l → f s x = some s' → P s → P s') (hb : P b) : P r := by
  induction l generalizing b with
  | nil => simp [ofoldlM] at hm; subst hm; exact hb
  | cons z zs ih =>
    cases hz : f b z with
    | none => simp [ofoldlM, hz] at hm
    | some m =>
      simp only [ofoldlM, hz] at hm
      exact ih hm (fun s x s' hx => hstep s x s' (List.mem_cons_of_mem _ hx))
        (hstep b z m (List.mem_cons_self _ _) hz hb)

theorem forall₂_mem_right {α β : Type} {R : α → β → Prop} {l : List α} {l' : List β}
    (hf : List.Forall₂ R l l') {y : β} (hy : y ∈ l') : ∃ x ∈ l, R x y := by
  induction hf with
  | nil => simp at hy
  | cons hr _ ih =>
    rcases List.mem_cons.mp hy with h | h
    · subst h; exact ⟨_, List.mem_cons_self _ _, hr⟩
    · obtain ⟨x, hx, hxy⟩ := ih h
      exact ⟨x, List.mem_cons_of_mem _ hx, hxy⟩

/-! ## Well-formedness unpacking -/

theorem wfOnt_unpack {o : Ontology} (hw : wfOnt o = true) :
    (o.terms.map Prod.fst).Nodup ∧ (o.terms.map Prod.snd).Nodup ∧
    (o.heap.map Prod.fst).Nodup ∧ (∀ p ∈ o.heap, p.1 < o.nextAddr) ∧
    (∀ p ∈ o.terms, ∃ u, heapGet o.heap p.2 = some u ∧ u.id = p.1) := by
  simp only [wfOnt, Bool.and_eq_true, List.all_eq_true, decide_eq_true_eq] at hw
  obtain ⟨⟨⟨⟨h1, h2⟩, h3⟩, h4⟩, h5⟩ := hw
  refine ⟨h1, h2, h3, fun p hp => by simpa using h4 p hp, fun p hp => ?_⟩
  have hmatch := h5 p hp
  cases hg : heapGet o.heap p.2 with
  | none => rw [hg] at hmatch; simp at hmatch
  | some u =>
    rw [hg] at hmatch
    simp only [decide_eq_true_eq] at hmatch
    exact ⟨u, rfl, hmatch⟩

/-! ## Adoption-pass lemmas -/

/-- The object written by one successful string-parent adoption step. -/
def adoptWrite (t : TermObj) (rel child : String) : TermObj :=
  appendRel (if (getRel t rel).isNone then addEmptyRel t rel else t) rel (.str child)

theorem adoptStep_str_absent {s : Ontology} {p rel child : String}
    (hl : lookupStr p s.terms = none) :
    adoptStep s (.str p, rel, child) = some s := by
  simp [adoptStep, hl]

theorem adoptStep_str_present {s : Ontology} {p rel child : String} {pa : Addr}
    {t : TermObj} (hl : lookupStr p s.terms = some pa)
    (hg : heapGet s.heap pa = some t) :
    adoptStep s (.str p, rel, child) =
      some { s with heap := heapSet s.heap pa (adoptWrite t rel child) } := by
  simp [adoptStep, hl, hg, adoptWrite]

theorem adoptStep_str_dead {s : Ontology} {p rel child : String} {pa : Addr}
    (hl : lookupStr p s.terms = some pa) (hg : heapGet s.heap pa = none) :
    adoptStep s (.str p, rel, child) = none := by
  simp [adoptStep, hl, hg]

theorem adoptStep_ref_cases {s s' : Ontology} {a : Addr} {rel child : String}
    (hstep : adoptStep s (.ref a, rel, child) = some s') : s' = s := by
  simp only [adoptStep] at hstep
  cases hg : heapGet s.heap a with
  | none => simp only [hg] at hstep; cases hstep
  | some t =>
    simp only [hg] at hstep
    by_cases hi : (lookupStr t.id s.terms).isSome
    · simp only [if_pos hi] at hstep; cases hstep
    · simp only [if_neg hi] at hstep
      injection hstep with hstep
      exact hstep.symm

theorem adoptStep_terms {s s' : Ontology} {r : PyVal × String × String}
    (hstep : adoptStep s r = some s') : s'.terms = s.terms := by
  obtain ⟨par, rel, child⟩ := r
  cases par with
  | str p =>
    cases hl : lookupStr p s.terms with
    | none =>
      rw [adoptStep_str_absent hl] at hstep
      injection hstep with hstep
      rw [← hstep]
    | some pa =>
      cases hg : heapGet s.heap pa with
      | none => rw [adoptStep_str_dead hl hg] at hstep; cases hstep
      | some t =>
        rw [adoptStep_str_present hl hg] at hstep
        injection hstep with hstep
        rw [← hstep]
  | ref a => rw [adoptStep_ref_cases hstep]

theorem adoptStep_domain {s s' : Ontology} {r : PyVal × String × String}
    (hstep : adoptStep s r = some s') (b : Addr) :
    (heapGet s'.heap b).isSome = (heapGet s.heap b).isSome := by
  obtain ⟨par, rel, child⟩ := r
  cases par with
  | str p =>
    cases hl : lookupStr p s.terms with
    | none =>
      rw [adoptStep_str_absent hl] at hstep
      injection hstep with hstep
      rw [← hstep]
    | some pa =>
      cases hg : heapGet s.heap pa with
      | none => rw [adoptStep_str_dead hl hg] at hstep; cases hstep
      | some t =>
        rw [adoptStep_str_present hl hg] at hstep
        injection hstep with hstep
        rw [← hstep]
        exact heapGet_heapSet_isSome _ _ _ _
  | ref a => rw [adoptStep_ref_cases hstep]

theorem collect_destruct {o : Ontology} {rels : List (PyVal × String × String)}
    (hc : collect o = some rels) :
    ∃ objs, omapM (fun k => (lookupStr k o.terms).bind (heapGet o.heap))
        (sortStr (o.terms.map Prod.fst)) = some objs ∧
      rels = (objs.map edgesOf).flatten := by
  have hc' : (omapM (fun k => (lookupStr k o.terms).bind (heapGet o.heap))
      (sortStr (o.terms.map Prod.fst))).bind
        (fun objs => some (objs.map edgesOf).flatten) = some rels := hc
  cases ho : omapM (fun k => (lookupStr k o.terms).bind (heapGet o.heap))
      (sortStr (o.terms.map Prod.fst)) with
  | none => rw [ho] at hc'; cases hc'
  | some objs =>
    rw [ho] at hc'
    simp only [Option.some_bind] at hc'
    injection hc' with hc'
    exact ⟨objs, rfl, hc'.symm⟩

theorem collect_mem {o : Ontology} {rels : List (PyVal × String × String)}
    (hc : collect o = some rels) {k : String} {ta : Addr} {t : TermObj}
    (hk : lookupStr k o.terms = some ta) (ht : heapGet o.heap ta = some t)
    {e : PyVal × String × String} (he : e ∈ edgesOf t) : e ∈ rels := by
  obtain ⟨objs, ho, hrels⟩ := collect_destruct hc
  have hkmem : k ∈ sortStr (o.terms.map Prod.fst) :=
    mem_sortStr.mpr (List.mem_map_of_mem Prod.fst (lookupStr_mem hk))
  obtain ⟨y, hy, hfy⟩ := omapM_some_of_mem ho hkmem
  rw [hk] at hfy
  simp only [Option.some_bind] at hfy
  rw [ht] at hfy
  injection hfy with hfy
  subst hfy
  subst hrels
  exact List.mem_flatten.mpr ⟨edgesOf t, List.mem_map_of_mem edgesOf hy, he⟩

theorem edgesOf_mem {t : TermObj} {kind inv : String} {vals : List PyVal}
    (hkind : (kind, inv) ∈ invTable) (hrel : getRel t kind = some vals)
    {v : PyVal} (hv : v ∈ vals) : (v, inv, t.id) ∈ edgesOf t := by
  have hsplit : (kind = "is_a" ∧ inv = "can_be") ∨
      (kind = "part_of" ∧ inv = "has_part") ∨
      (kind = "is_part" ∧ inv = "part_of") := by
    simpa [invTable, Prod.ext_iff] using hkind
  simp only [edgesOf, List.mem_append]
  rcases hsplit with ⟨hk, hi⟩ | ⟨hk, hi⟩ | ⟨hk, hi⟩ <;> subst hk <;> subst hi
  · left; left
    rw [hrel]
    exact List.mem_map.mpr ⟨v, hv, rfl⟩
  · left; right
    rw [hrel]
    exact List.mem_map.mpr ⟨v, hv, rfl⟩
  · right
    rw [hrel]
    exact List.mem_map.mpr ⟨v, hv, rfl⟩

theorem adoptWrite_self {t : TermObj} {rel child : String} :
    ∃ vs, getRel (adoptWrite t rel child) rel = some vs ∧ PyVal.str child ∈ vs := by
  cases hgr : getRel t rel with
  | none =>
    have h1 : getRel (addEmptyRel t rel) rel = some [] := by
      simp only [getRel, addEmptyRel] at hgr ⊢
      exact relLookup_append_fresh hgr
    refine ⟨[PyVal.str child], ?_, List.mem_singleton.mpr rfl⟩
    simp only [adoptWrite, hgr, Option.isNone_none, if_pos]
    simp only [getRel, appendRel] at h1 ⊢
    simpa using relLookup_appendAt_self h1
  | some vs0 =>
    refine ⟨vs0 ++ [PyVal.str child], ?_, by simp⟩
    simp only [adoptWrite, hgr, Option.isNone_some, Bool.false_eq_true, if_false]
    simp only [getRel, appendRel] at hgr ⊢
    exact relLookup_appendAt_self hgr

theorem adoptWrite_other {t : TermObj} {rel child inv : String} {vs : List PyVal}
    (hr : getRel t inv = some vs) :
    ∃ vs', getRel (adoptWrite t rel child) inv = some vs' ∧ vs ⊆ vs' := by
  by_cases hrr : rel = inv
  · subst hrr
    have hn : (getRel t rel).isNone = false := by simp [hr]
    refine ⟨vs ++ [PyVal.str child], ?_, List.subset_append_left _ _⟩
    simp only [adoptWrite, hn, Bool.false_eq_true, if_false]
    simp only [getRel, appendRel] at hr ⊢
    exact relLookup_appendAt_self hr
  · have h1 : getRel (if (getRel t rel).isNone then addEmptyRel t rel else t) inv =
        some vs := by
      by_cases hn : (getRel t rel).isNone
      · rw [if_pos hn]
        simp only [getRel, addEmptyRel]
        simp only [getRel] at hr
        exact relLookup_append_of_some hr
      · rw [if_neg hn]; exact hr
    refine ⟨vs, ?_, List.Subset.refl _⟩
    simp only [adoptWrite]
    simp only [getRel, appendRel] at h1 ⊢
    rw [relLookup_appendAt_ne fun h => hrr h]
    exact h1

theorem adoptStep_establishes {s s' : Ontology} {p inv c : String} {pa : Addr}
    (hstep : adoptStep s (.str p, inv, c) = some s')
    (hp : lookupStr p s.terms = some pa) :
    ∃ pt vs, heapGet s'.heap pa = some pt ∧ getRel pt inv = some vs ∧
      PyVal.str c ∈ vs := by
  cases hg : heapGet s.heap pa with
  | none => rw [adoptStep_str_dead hp hg] at hstep; cases hstep
  | some t =>
    rw [adoptStep_str_present hp hg] at hstep
    injection hstep with hstep
    subst hstep
    obtain ⟨vs, hvs, hc⟩ := @adoptWrite_self t inv c
    exact ⟨adoptWrite t inv c, vs, heapGet_heapSet_self hg, hvs, hc⟩

theorem adoptStep_preserves {s s' : Ontology} {r : PyVal × String × String}
    (hstep : adoptStep s r = some s') {pa : Addr} {inv c : String}
    (hq : ∃ pt vs, heapGet s.heap pa = some pt ∧ getRel pt inv = some vs ∧
      PyVal.str c ∈ vs) :
    ∃ pt vs, heapGet s'.heap pa = some pt ∧ getRel pt inv = some vs ∧
      PyVal.str c ∈ vs := by
  obtain ⟨pt, vs, hg, hr, hm⟩ := hq
  obtain ⟨par, rel, child⟩ := r
  cases par with
  | str p =>
    cases hl : lookupStr p s.terms with
    | none =>
      rw [adoptStep_str_absent hl] at hstep
      injection hstep with hstep
      exact hstep ▸ ⟨pt, vs, hg, hr, hm⟩
    | some pa' =>
      cases hg' : heapGet s.heap pa' with
      | none => rw [adoptStep_str_dead hl hg'] at hstep; cases hstep
      | some t' =>
        rw [adoptStep_str_present hl hg'] at hstep
        injection hstep with hstep
        subst hstep
        by_cases hpa : pa' = pa
        · subst hpa
          rw [hg] at hg'
          injection hg' with hg'
          subst hg'
          obtain ⟨vs', hvs', hsub⟩ := @adoptWrite_other pt rel child inv vs hr
          exact ⟨adoptWrite pt rel child, vs', heapGet_heapSet_self hg, hvs', hsub hm⟩
        · exact ⟨pt, vs, by rw [heapGet_heapSet_ne hpa] at *; exact hg, hr, hm⟩
  | ref a =>
    rw [adoptStep_ref_cases hstep]
    exact ⟨pt, vs, hg, hr, hm⟩

/-! ## Reference-resolution lemmas -/

theorem grows_refl (s : Heap × Nat) : Grows s s :=
  ⟨Nat.le_refl _, fun _ _ => rfl, fun _ hp => Or.inl hp⟩

theorem grows_trans {s1 s2 s3 : Heap × Nat} (h12 : Grows s1 s2) (h23 : Grows s2 s3) :
    Grows s1 s3 := by
  obtain ⟨hn12, hf12, hm12⟩ := h12
  obtain ⟨hn23, hf23, hm23⟩ := h23
  refine ⟨Nat.le_trans hn12 hn23, fun b hb => ?_, fun p hp => ?_⟩
  · rw [hf23 b (Nat.lt_of_lt_of_le hb hn12), hf12 b hb]
  · rcases hm23 p hp with h | h
    · exact hm12 p h
    · exact Or.inr (Nat.le_trans hn12 h)

theorem grows_ext {m : Nat} {s s' : Heap × Nat} (hw : WFS m s) (hg : Grows s s') :
    ∀ pa u, heapGet s.1 pa = some u → heapGet s'.1 pa = some u := by
  intro pa u hget
  have hlt : pa < s.2 := hw.1 _ (heapGet_mem hget)
  rw [hg.2.1 pa hlt]
  exact hget

theorem resolvesTo_mono {tm : List (String × Addr)} {m : Nat} {h1 h2 : Heap}
    {v v' : PyVal} (hr : resolvesTo tm m h1 v v')
    (hext : ∀ pa u, m ≤ pa → heapGet h1 pa = some u → heapGet h2 pa = some u) :
    resolvesTo tm m h2 v v' := by
  cases v with
  | ref a => exact hr
  | str x =>
    obtain ⟨hpres, habs⟩ := hr
    refine ⟨hpres, fun hn => ?_⟩
    obtain ⟨pa, hm, hv, hg⟩ := habs hn
    exact ⟨pa, hm, hv, hext pa _ hm hg⟩

theorem resolvesTo_isTerm {tm : List (String × Addr)} {m : Nat} {h' : Heap}
    {v v' : PyVal} (hr : resolvesTo tm m h' v v') : isTerm v' = true := by
  cases v with
  | ref a => rw [show v' = PyVal.ref a from hr]; rfl
  | str x =>
    obtain ⟨hpres, habs⟩ := hr
    cases hl : lookupStr x tm with
    | some a => rw [hpres a hl]; rfl
    | none =>
      obtain ⟨pa, _, hv, _⟩ := habs hl
      rw [hv]; rfl

theorem relsResolve_mono {tm : List (String × Addr)} {m : Nat} {h1 h2 : Heap}
    {rels rels' : List (String × List PyVal)} (hr : RelsResolve tm m h1 rels rels')
    (hext : ∀ pa u, m ≤ pa → heapGet h1 pa = some u → heapGet h2 pa = some u) :
    RelsResolve tm m h2 rels rels' := by
  refine List.Forall₂.imp (fun a b hab => ⟨hab.1, ?_⟩) hr
  exact List.Forall₂.imp (fun x y hxy => resolvesTo_mono hxy hext) hab.2

theorem relsResolve_refs {tm : List (String × Addr)} {m : Nat} {h' : Heap}
    {rels rels' : List (String × List PyVal)} (h : RelsResolve tm m h' rels rels') :
    ∀ r ∈ rels', ∀ v ∈ r.2, isTerm v = true := by
  intro r hr v hv
  obtain ⟨r0, _, _, hf⟩ := forall₂_mem_right h hr
  obtain ⟨v0, _, hrt⟩ := forall₂_mem_right hf hv
  exact resolvesTo_isTerm hrt

theorem resolveVal_str_present {tm : List (String × Addr)} {x : String} {a : Addr}
    (hl : lookupStr x tm = some a) (h : Heap) (n : Nat) :
    resolveVal tm (h, n) (.str x) = ((h, n), .ref a) := by
  simp [resolveVal, hl]

theorem resolveVal_str_absent {tm : List (String × Addr)} {x : String}
    (hl : lookupStr x tm = none) (h : Heap) (n : Nat) :
    resolveVal tm (h, n) (.str x) = ((h ++ [(n, placeholderObj x)], n + 1), .ref n) := by
  simp [resolveVal, hl]

theorem resolveVal_correct {tm : List (String × Addr)} {m : Nat} {s : Heap × Nat}
    (hw : WFS m s) (v : PyVal) :
    WFS m (resolveVal tm s v).1 ∧ Grows s (resolveVal tm s v).1 ∧
    resolvesTo tm m (resolveVal tm s v).1.1 v (resolveVal tm s v).2 := by
  obtain ⟨h, n⟩ := s
  obtain ⟨hbound, hnd, hm⟩ := hw
  cases v with
  | ref a => exact ⟨⟨hbound, hnd, hm⟩, grows_refl _, rfl⟩
  | str x =>
    cases hl : lookupStr x tm with
    | some a =>
      rw [resolveVal_str_present hl]
      refine ⟨⟨hbound, hnd, hm⟩, grows_refl _, fun a' hl' => ?_, fun hn => ?_⟩
      · rw [hl] at hl'; injection hl' with hl'; rw [hl']
      · rw [hl] at hn; cases hn
    | none =>
      have hfresh : heapGet h n = none := by
        rw [heapGet_eq_none_iff]
        intro p hp
        exact Nat.ne_of_lt (hbound p hp)
      rw [resolveVal_str_absent hl]
      refine ⟨⟨?_, ?_, Nat.le_succ_of_le hm⟩, ⟨Nat.le_succ _, ?_, ?_⟩,
        fun a' hl' => ?_, fun _ => ?_⟩
      · intro p hp
        rcases List.mem_append.mp hp with hp | hp
        · exact Nat.lt_succ_of_lt (hbound p hp)
        · rw [List.mem_singleton.mp hp]
          exact Nat.lt_succ_self _
      · rw [List.map_append, List.nodup_append]
        refine ⟨hnd, List.nodup_singleton _, ?_⟩
        intro b hb hbn
        simp only [List.map_cons, List.map_nil, List.mem_singleton] at hbn
        obtain ⟨p, hp, hpb⟩ := List.mem_map.mp hb
        subst hbn
        exact absurd (hpb ▸ hbound p hp) (Nat.lt_irrefl _)
      · intro b hb
        exact heapGet_append_ne fun hbn => absurd (hbn ▸ hb) (Nat.lt_irrefl _)
      · intro p hp
        rcases List.mem_append.mp hp with hp | hp
        · exact Or.inl hp
        · rw [List.mem_singleton.mp hp]
          exact Or.inr (Nat.le_refl _)
      · rw [hl] at hl'; cases hl'
      · exact ⟨n, hm, rfl, heapGet_append_fresh hfresh⟩

theorem resolveVals_correct {tm : List (String × Addr)} {m : Nat} :
    ∀ (vs : List PyVal) {s : Heap × Nat}, WFS m s →
    WFS m (resolveVals tm s vs).1 ∧ Grows s (resolveVals tm s vs).1 ∧
    List.Forall₂ (resolvesTo tm m (resolveVals tm s vs).1.1) vs
      (resolveVals tm s vs).2 := by
  intro vs
  induction vs with
  | nil => exact fun hw => ⟨hw, grows_refl _, List.Forall₂.nil⟩
  | cons v vs ih =>
    intro s hw
    obtain ⟨hw1, hg1, hr1⟩ := resolveVal_correct hw v
    cases hrv : resolveVal tm s v with
    | mk s1 v1 =>
      rw [hrv] at hw1 hg1 hr1
      obtain ⟨hw2, hg2, hr2⟩ := ih hw1
      cases hrvs : resolveVals tm s1 vs with
      | mk s2 vs2 =>
        rw [hrvs] at hw2 hg2 hr2
        have hred : resolveVals tm s (v :: vs) = (s2, v1 :: vs2) := by
          simp only [resolveVals, hrv, hrvs]
        rw [hred]
        refine ⟨hw2, grows_trans hg1 hg2, List.Forall₂.cons ?_ hr2⟩
        exact resolvesTo_mono hr1 fun pa u _ hg => grows_ext hw1 hg2 pa u hg

theorem resolveRels_correct {tm : List (String × Addr)} {m : Nat} :
    ∀ (rels : List (String × List PyVal)) {s : Heap × Nat}, WFS m s →
    WFS m (resolveRels tm s rels).1 ∧ Grows s (resolveRels tm s rels).1 ∧
    RelsResolve tm m (resolveRels tm s rels).1.1 rels (resolveRels tm s rels).2 := by
  intro rels
  induction rels with
  | nil => exact fun hw => ⟨hw, grows_refl _, List.Forall₂.nil⟩
  | cons r rels ih =>
    intro s hw
    obtain ⟨k, vs⟩ := r
    obtain ⟨hw1, hg1, hr1⟩ := resolveVals_correct vs hw
    cases hrv : resolveVals tm s vs with
    | mk s1 vs1 =>
      rw [hrv] at hw1 hg1 hr1
      obtain ⟨hw2, hg2, hr2⟩ := ih hw1
      cases hrr : resolveRels tm s1 rels with
      | mk s2 rels2 =>
        rw [hrr] at hw2 hg2 hr2
        have hred : resolveRels tm s ((k, vs) :: rels) = (s2, (k, vs1) :: rels2) := by
          simp only [resolveRels, hrv, hrr]
        rw [hred]
        refine ⟨hw2, grows_trans hg1 hg2, List.Forall₂.cons ⟨rfl, ?_⟩ hr2⟩
        exact List.Forall₂.imp
          (fun x y hxy => resolvesTo_mono hxy fun pa u _ hg => grows_ext hw1 hg2 pa u hg)
          hr1

theorem heapSet_mem_keys {h : Heap} {a : Addr} {t : TermObj} {p : Addr × TermObj}
    (hp : p ∈ heapSet h a t) : p.1 ∈ h.map Prod.fst := by
  have hmem := List.mem_map_of_mem Prod.fst hp
  rw [heapSet_keys] at hmem
  exact hmem

theorem referenceStep_none {tm : List (String × Addr)} {s : Heap × Nat}
    {e : String × Addr} (hg : heapGet s.1 e.2 = none) : referenceStep tm s e = s := by
  simp [referenceStep, hg]

theorem referenceStep_some {tm : List (String × Addr)} {s : Heap × Nat}
    {e : String × Addr} {t : TermObj} {s1 : Heap × Nat} {rels' : List (String × List PyVal)}
    (hg : heapGet s.1 e.2 = some t)
    (hrr : resolveRels tm s t.relations = (s1, rels')) :
    referenceStep tm s e = (heapSet s1.1 e.2 { t with relations := rels' }, s1.2) := by
  simp [referenceStep, hg, hrr]

theorem referenceFold_correct {o : Ontology} (hw : wfOnt o = true) :
    ∀ (todo done : List (String × Addr)) (s : Heap × Nat),
      o.terms = done ++ todo → WFS o.nextAddr s →
      (∀ e ∈ todo, heapGet s.1 e.2 = heapGet o.heap e.2) →
      (∀ e ∈ done, Done o s.1 e) →
      WFS o.nextAddr (todo.foldl (referenceStep o.terms) s) ∧
      ∀ e ∈ done ++ todo, Done o (todo.foldl (referenceStep o.terms) s).1 e := by
  intro todo
  induction todo with
  | nil =>
    intro done s _ hwfs _ hDone
    rw [List.append_nil]
    exact ⟨hwfs, hDone⟩
  | cons e todo ih =>
    intro done s hsplit hwfs hI6 hDone
    obtain ⟨hkeysnd, haddrnd, hheapnd, hbound, hlive⟩ := wfOnt_unpack hw
    have hemem : e ∈ o.terms := by
      rw [hsplit]; exact List.mem_append_right _ (List.mem_cons_self _ _)
    obtain ⟨t0, hg0, hid0⟩ := hlive e hemem
    have helt : e.2 < o.nextAddr := hbound _ (heapGet_mem hg0)
    have hgs : heapGet s.1 e.2 = some t0 := by
      rw [hI6 e (List.mem_cons_self _ _)]; exact hg0
    obtain ⟨hw1, hg1, hr1⟩ := resolveRels_correct t0.relations hwfs
    cases hrr : resolveRels o.terms s t0.relations with
    | mk s1 rels' =>
      rw [hrr] at hw1 hg1 hr1
      have hstep : referenceStep o.terms s e =
          (heapSet s1.1 e.2 { t0 with relations := rels' }, s1.2) :=
        referenceStep_some hgs hrr
      have hndall : ((done ++ e :: todo).map Prod.snd).Nodup := by
        rw [← hsplit]; exact haddrnd
      rw [List.map_append, List.nodup_append] at hndall
      obtain ⟨hnddone, hndcons, hdisj⟩ := hndall
      rw [List.map_cons, List.nodup_cons] at hndcons
      have hne_todo : ∀ e' ∈ todo, e'.2 ≠ e.2 := by
        intro e' he' heq
        exact hndcons.1 (heq ▸ List.mem_map_of_mem Prod.snd he')
      have hne_done : ∀ e' ∈ done, e'.2 ≠ e.2 := by
        intro e' he' heq
        exact hdisj (List.mem_map_of_mem Prod.snd he')
          (by rw [heq, List.map_cons]; exact List.mem_cons_self _ _)
      have hwfs_new : WFS o.nextAddr
          (heapSet s1.1 e.2 { t0 with relations := rels' }, s1.2) := by
        refine ⟨?_, ?_, hw1.2.2⟩
        · intro p hp
          have hk := heapSet_mem_keys hp
          obtain ⟨q, hq, hqk⟩ := List.mem_map.mp hk
          exact hqk ▸ hw1.1 q hq
        · show ((heapSet s1.1 e.2 _).map Prod.fst).Nodup
          rw [heapSet_keys]
          exact hw1.2.1
      have hext_new : ∀ pa u, o.nextAddr ≤ pa → heapGet s1.1 pa = some u →
          heapGet (heapSet s1.1 e.2 { t0 with relations := rels' }) pa = some u := by
        intro pa u hpa hg
        have hne : e.2 ≠ pa := fun h => absurd (h ▸ hpa) (Nat.not_le_of_lt (h ▸ helt))
        rw [heapGet_heapSet_ne hne]
        exact hg
      have hext_s : ∀ pa u, o.nextAddr ≤ pa → heapGet s.1 pa = some u →
          heapGet (heapSet s1.1 e.2 { t0 with relations := rels' }) pa = some u :=
        fun pa u hpa hg => hext_new pa u hpa (grows_ext hwfs hg1 pa u hg)
      have hI6' : ∀ e' ∈ todo,
          heapGet (heapSet s1.1 e.2 { t0 with relations := rels' }) e'.2 =
          heapGet o.heap e'.2 := by
        intro e' he'
        have hmem' : e' ∈ o.terms := by
          rw [hsplit]
          exact List.mem_append_right _ (List.mem_cons_of_mem _ he')
        obtain ⟨t0', hg0', _⟩ := hlive e' hmem'
        have hlt' : e'.2 < o.nextAddr := hbound _ (heapGet_mem hg0')
        rw [heapGet_heapSet_ne (Ne.symm (hne_todo e' he')),
          hg1.2.1 e'.2 (Nat.lt_of_lt_of_le hlt' hwfs.2.2), hI6 e' (List.mem_cons_of_mem _ he')]
      have hDone_e : Done o (heapSet s1.1 e.2 { t0 with relations := rels' }) e := by
        intro t ht
        rw [hg0] at ht
        injection ht with ht
        subst ht
        refine ⟨{ t0 with relations := rels' }, ?_, rfl, rfl, rfl, rfl, rfl, ?_⟩
        · exact heapGet_heapSet_self (grows_ext hwfs hg1 _ _ hgs)
        · exact relsResolve_mono hr1 hext_new
      have hDone' : ∀ e' ∈ done ++ [e],
          Done o (heapSet s1.1 e.2 { t0 with relations := rels' }) e' := by
        intro e' he'
        rcases List.mem_append.mp he' with hd | hsing
        · intro t ht
          obtain ⟨t', hg', hi, hn, hdsc, hoth, hcch, hrl⟩ := hDone e' hd t ht
          have hlt' : e'.2 < o.nextAddr := hbound _ (heapGet_mem ht)
          have hne' : e.2 ≠ e'.2 := Ne.symm (hne_done e' hd)
          have hgnew : heapGet (heapSet s1.1 e.2 { t0 with relations := rels' }) e'.2 =
              some t' := by
            rw [heapGet_heapSet_ne hne',
              hg1.2.1 e'.2 (Nat.lt_of_lt_of_le hlt' hwfs.2.2)]
            exact hg'
          exact ⟨t', hgnew, hi, hn, hdsc, hoth, hcch, relsResolve_mono hrl hext_s⟩
        · rw [List.mem_singleton.mp hsing]
          exact hDone_e
      have hsplit' : o.terms = (done ++ [e]) ++ todo := by
        rw [hsplit, List.append_assoc, List.singleton_append]
      have hres := ih (done ++ [e])
        (heapSet s1.1 e.2 { t0 with relations := rels' }, s1.2)
        hsplit' hwfs_new hI6' hDone'
      rw [List.foldl_cons, hstep]
      refine ⟨hres.1, ?_⟩
      intro e' he'
      refine hres.2 e' ?_
      rw [List.append_assoc, List.singleton_append]
      exact he'

theorem reference_correct {o : Ontology} (hw : wfOnt o = true) :
    WFS o.nextAddr ((reference o).heap, (reference o).nextAddr) ∧
    ∀ e ∈ o.terms, Done o (reference o).heap e := by
  obtain ⟨hkeysnd, haddrnd, hheapnd, hbound, hlive⟩ := wfOnt_unpack hw
  have hinit : WFS o.nextAddr (o.heap, o.nextAddr) := ⟨hbound, hheapnd, Nat.le_refl _⟩
  have hres := referenceFold_correct hw o.terms [] (o.heap, o.nextAddr) rfl hinit
    (fun e _ => rfl) (fun e he => absurd he (List.not_mem_nil e))
  exact ⟨hres.1, fun e he => hres.2 e (by simpa using he)⟩

theorem resolveVals_refs {tm : List (String × Addr)} :
    ∀ {vs : List PyVal}, (∀ v ∈ vs, isTerm v = true) →
    ∀ s : Heap × Nat, resolveVals tm s vs = (s, vs) := by
  intro vs
  induction vs with
  | nil => intro _ s; rfl
  | cons v vs ih =>
    intro h s
    cases v with
    | str x =>
      have hv := h _ (List.mem_cons_self _ _)
      simp [isTerm] at hv
    | ref a =>
      obtain ⟨hh, n⟩ := s
      have h2 := ih (fun v hv => h v (List.mem_cons_of_mem _ hv)) (hh, n)
      simp only [resolveVals, resolveVal, h2]

theorem resolveRels_refs {tm : List (String × Addr)} :
    ∀ {rels : List (String × List PyVal)},
    (∀ r ∈ rels, ∀ v ∈ r.2, isTerm v = true) →
    ∀ s : Heap × Nat, resolveRels tm s rels = (s, rels) := by
  intro rels
  induction rels with
  | nil => intro _ s; rfl
  | cons r rels ih =>
    intro h s
    obtain ⟨k, vs⟩ := r
    have h1 := @resolveVals_refs tm vs (h (k, vs) (List.mem_cons_self _ _)) s
    have h2 := ih (fun r hr => h r (List.mem_cons_of_mem _ hr)) s
    simp only [resolveRels, h1, h2]

theorem referenceStep_id {tm : List (String × Addr)} {s : Heap × Nat}
    {e : String × Addr} (hnd : (s.1.map Prod.fst).Nodup)
    (hres : ∀ t, heapGet s.1 e.2 = some t →
      ∀ r ∈ t.relations, ∀ v ∈ r.2, isTerm v = true) :
    referenceStep tm s e = s := by
  cases hg : heapGet s.1 e.2 with
  | none => exact referenceStep_none hg
  | some t =>
    have hrr : resolveRels tm s t.relations = (s, t.relations) :=
      resolveRels_refs (hres t hg) s
    rw [referenceStep_some hg hrr]
    have heta : ({ t with relations := t.relations } : TermObj) = t := rfl
    rw [heta, heapSet_id hnd hg]

theorem foldl_referenceStep_id {tm : List (String × Addr)} {s : Heap × Nat} :
    ∀ l : List (String × Addr), (∀ e ∈ l, referenceStep tm s e = s) →
    l.foldl (referenceStep tm) s = s := by
  intro l
  induction l with
  | nil => intro _; rfl
  | cons e l ih =>
    intro h
    rw [List.foldl_cons, h e (List.mem_cons_self _ _)]
    exact ih fun e' he' => h e' (List.mem_cons_of_mem _ he')

/-! ## TermList construction lemmas -/

theorem termListInit_multi (a b : TLArg) (rest : List TLArg) :
    termListInit (a :: b :: rest) =
      if (a :: b :: rest).all argIsTerm then TLInitResult.ok ((a :: b :: rest).map argVal)
      else TLInitResult.typeError := by
  cases a <;> rfl

/-! ## Traversal lemmas -/

theorem rchildren_some_nodup {h : Heap} {f : Nat} {a : Addr} {level : Int} {inter : Bool}
    {L : List Addr} (hm : rchildrenFuel h f a level inter = some L) : L.Nodup := by
  cases f with
  | zero => simp [rchildrenFuel] at hm
  | succ f =>
    rw [rchildrenFuel] at hm
    by_cases hl : level = 0
    · rw [if_pos hl] at hm
      injection hm with hm
      exact hm ▸ List.nodup_nil
    · rw [if_neg hl] at hm
      cases hca : childAddrs h a with
      | none => simp [hca] at hm
      | some cs =>
        simp only [hca] at hm
        cases hrl : rcList (fun c => rchildrenFuel h f c (level - 1) inter) cs with
        | none => simp [hrl] at hm
        | some rest =>
          simp only [hrl] at hm
          injection hm with hm
          exact hm ▸ nodup_dedupAddrs _

theorem cyc_diverges : ∀ f : Nat, ∀ level : Int, level < 0 → ∀ inter : Bool,
    rchildrenFuel cycHeap f 0 level inter = none ∧
    rchildrenFuel cycHeap f 1 level inter = none := by
  intro f
  induction f with
  | zero => intro level _ inter; exact ⟨rfl, rfl⟩
  | succ f ih =>
    intro level hlev inter
    have hne : ¬(level = 0) := by omega
    have h0 : childAddrs cycHeap 0 = some [1] := by decide
    have h1 : childAddrs cycHeap 1 = some [0] := by decide
    constructor
    · rw [rchildrenFuel, if_neg hne]
      simp only [h0]
      have hrec := (ih (level - 1) (by omega) inter).2
      simp [rcList, hrec]
    · rw [rchildrenFuel, if_neg hne]
      simp only [h1]
      have hrec := (ih (level - 1) (by omega) inter).1
      simp [rcList, hrec]

/-! ## JSON serialization lemmas -/

theorem resolvedOnt_unpack {o : Ontology} (hr : resolvedOnt o = true) :
    ∀ p ∈ o.terms, ∃ t, heapGet o.heap p.2 = some t ∧
      ∀ r ∈ t.relations, ∀ v ∈ r.2, ∃ b, v = PyVal.ref b ∧
        (heapGet o.heap b).isSome := by
  simp only [resolvedOnt, List.all_eq_true] at hr
  intro p hp
  have h := hr p hp
  cases hg : heapGet o.heap p.2 with
  | none => rw [hg] at h; simp at h
  | some t =>
    rw [hg] at h
    simp only [List.all_eq_true] at h
    refine ⟨t, rfl, fun r hrm v hv => ?_⟩
    have h2 := h r hrm v hv
    cases v with
    | str s => simp at h2
    | ref b => exact ⟨b, rfl, h2⟩

theorem relEntryJson_isSome {h : Heap} {r : String × List PyVal}
    (hr : ∀ v ∈ r.2, ∃ b, v = PyVal.ref b ∧ (heapGet h b).isSome) :
    (relEntryJson h r).isSome := by
  have hvs : ∀ v ∈ r.2, (valId h v).isSome := by
    intro v hvm
    obtain ⟨b, hvb, hb⟩ := hr v hvm
    rw [hvb]
    simpa [valId] using hb
  obtain ⟨ids, hids⟩ := omapM_some_of_forall hvs
  simp [relEntryJson, hids]

theorem relEntryJson_corr {h : Heap} {r : String × List PyVal} {q : String × Json}
    (hf : relEntryJson h r = some q) : RelEntryJson h r q := by
  cases hids : omapM (valId h) r.2 with
  | none => simp [relEntryJson, hids] at hf
  | some ids =>
    have hf' : some (r.1, Json.arr (ids.map Json.str)) = some q := by
      rw [← hf]
      simp [relEntryJson, hids]
    injection hf' with hf'
    exact ⟨by rw [← hf'], ids, hids, by rw [← hf']⟩

theorem entryJson_corr {h : Heap} {e : String × Addr} {p : String × Json}
    (hf : entryJson h e = some p) : EntryJson h e p := by
  cases hg : heapGet h e.2 with
  | none => simp [entryJson, hg] at hf
  | some t =>
    cases hrj : relationsJson h t.relations with
    | none => simp [entryJson, hg, derefJson, hrj] at hf
    | some rj =>
      cases hentries : omapM (relEntryJson h) (sortPairs t.relations) with
      | none => simp [relationsJson, hentries] at hrj
      | some rentries =>
        have hrj' : rj = Json.obj rentries := by
          have hx : some (Json.obj rentries) = some rj := by
            rw [← hrj]
            simp [relationsJson, hentries]
          injection hx with hx
          exact hx.symm
        subst hrj'
        have hdj : derefJson h t = some (Json.obj
            [("desc", Json.str t.desc), ("id", Json.str t.id),
             ("name", Json.str t.name), ("other", otherJson t.other),
             ("relations", Json.obj rentries)]) := by
          simp [derefJson, hrj]
        have hf' : some (e.1, Json.obj
            [("desc", Json.str t.desc), ("id", Json.str t.id),
             ("name", Json.str t.name), ("other", otherJson t.other),
             ("relations", Json.obj rentries)]) = some p := by
          rw [← hf]
          simp [entryJson, hg, hdj]
        injection hf' with hf'
        refine ⟨by rw [← hf'], t, rentries, hg, by rw [← hf'], ?_⟩
        exact (omapM_forall₂ hentries).imp fun _ _ hq => relEntryJson_corr hq

theorem relationsJson_corr {h : Heap} {rels : List (String × List PyVal)}
    (hv : ∀ r ∈ rels, ∀ v ∈ r.2, ∃ b, v = PyVal.ref b ∧ (heapGet h b).isSome) :
    ∃ entries, relationsJson h rels = some (Json.obj entries) ∧
      List.Forall₂ (RelEntryJson h) (sortPairs rels) entries := by
  obtain ⟨entries, hentries⟩ := omapM_some_of_forall
    (fun q hq => relEntryJson_isSome (hv q (mem_sortPairs.mp hq)))
  refine ⟨entries, by simp [relationsJson, hentries], ?_⟩
  exact (omapM_forall₂ hentries).imp fun _ _ hf => relEntryJson_corr hf

theorem derefJson_corr {h : Heap} {t : TermObj}
    (hv : ∀ r ∈ t.relations, ∀ v ∈ r.2, ∃ b, v = PyVal.ref b ∧
      (heapGet h b).isSome) :
    ∃ rels, derefJson h t = some (Json.obj
      [("desc", Json.str t.desc), ("id", Json.str t.id), ("name", Json.str t.name),
       ("other", otherJson t.other), ("relations", Json.obj rels)]) ∧
      List.Forall₂ (RelEntryJson h) (sortPairs t.relations) rels := by
  obtain ⟨entries, hrj, hsh⟩ := relationsJson_corr hv
  exact ⟨entries, by simp [derefJson, hrj], hsh⟩

/-! ## Claim theorems -/

/-- C2.  The claim says `rchildren(level=-1)` terminates on a cyclic
children-graph and returns a finite deduplicated collection.  The code has
no visited-set guard and decrements `level` past zero, so on the two-term
cycle `cycHeap` the recursion exhausts every amount of fuel: the Python
call never returns (it dies of RecursionError).  The claim (and the spec's
own §9 note flagging the missing cycle guard as a defect) is right about
the intent; the code violates it. -/
theorem c2_rchildren_cycle_diverges :
    ∀ f : Nat, rchildrenFuel cycHeap f 0 (-1) true = none := fun f =>
  (cyc_diverges f (-1) (by norm_num) true).1

/-- C7, counterexample.  `TermList(set(rchildren))` deduplicates by object
identity (class `Term` defines neither `__eq__` nor `__hash__`), not by
identifier: on `c7h`, where two distinct objects (addresses 3 and 4) share
the identifier `X`, the result keeps both, so it contains two elements with
equal identifiers — refuting "for any two elements of the result, their
identifiers differ". -/
theorem c7_rchildren_identity_dedup_cex :
    rchildrenFuel c7h 10 0 (-1) true = some [1, 2, 3, 4] ∧
    (3 : Addr) ∈ [1, 2, 3, 4] ∧ (4 : Addr) ∈ [1, 2, 3, 4] ∧ (3 : Addr) ≠ 4 ∧
    (heapGet c7h 3).map TermObj.id = some "X" ∧
    (heapGet c7h 4).map TermObj.id = some "X" := by
  exact ⟨rfl, by decide, by decide, by decide, rfl, rfl⟩

/-- C7, amended.  The collection returned by `rchildren` is deduplicated by
object identity (Python `set` over Terms without `__eq__`/`__hash__`): the
addresses in any returned collection are pairwise distinct, but distinct
Term objects sharing one identifier (e.g. placeholder terms) may all
appear. -/
theorem c7_rchildren_nodup_amended {h : Heap} {f : Nat} {a : Addr} {level : Int}
    {inter : Bool} {L : List Addr} (hm : rchildrenFuel h f a level inter = some L) :
    L.Nodup :=
  rchildren_some_nodup hm

/-- Witness for C7's amended theorem at a concrete input. -/
theorem c7_rchildren_nodup_amended_witness :
    rchildrenFuel c7h 10 0 (-1) true = some [1, 2, 3, 4] ∧
    ([1, 2, 3, 4] : List Addr).Nodup :=
  ⟨rfl, c7_rchildren_nodup_amended (rfl : rchildrenFuel c7h 10 0 (-1) true = some [1, 2, 3, 4])⟩

/-- C8.  The claim says `parents` and `children` are recomputed from the
current relations at every access.  `children` is (its memoize decorator is
commented out), but `parents` sits behind `functools.lru_cache(None)`:
after `B.parents` is accessed once (cache filled with `[]`), adoption of
`A`'s forward `is_part` edge appends a `part_of` edge to `B` — a parental
kind — yet the next `parents` access still returns the stale cached `[]`
while the concatenation of the current endpoints is `["A"]`.  The spec's
§9 itself flags this unconditional cache as a staleness bug, so the claim
is right and the code is wrong. -/
theorem c8_parents_cache_stale :
    (parentsAccess c8tB0).1 = [] ∧
    (parentsAccess c8tB0).2 = c8tB1 ∧
    adopt c8o1 = some c8o2 ∧
    heapGet c8o2.heap 1 = some c8tB2 ∧
    (parentsAccess c8tB2).1 = [] ∧
    parentsCompute c8tB2 = [PyVal.str "A"] ∧
    childrenCompute c8tB2 = [] := by
  exact ⟨rfl, rfl, rfl, rfl, rfl, rfl, rfl⟩

/-- C9.  `__getitem__` is a plain lookup in the primary map `self.terms`
and fails (KeyError) exactly when the identifier is absent from it; the
resolution pass never touches the primary map, so the placeholder it
creates for the dangling identifier `X` of `c9o` exists on the heap but is
still not reachable through lookup-by-id. -/
theorem c9_lookup_notfound :
    (∀ o : Ontology, (reference o).terms = o.terms) ∧
    (∀ (o : Ontology) (x : String), getItem o x = none ↔ ∀ p ∈ o.terms, p.1 ≠ x) ∧
    lookupStr "X" c9o.terms = none ∧
    heapHasId (reference c9o).heap "X" = true ∧
    getItem (reference c9o) "X" = none := by
  exact ⟨fun o => rfl, fun o x => lookupStr_eq_none_iff, rfl, rfl, rfl⟩

/-- C10.  `TermList.__init__` with exactly one positional argument that is
neither a list nor a set never assigns `self.terms`: the subsequent
`_check_content` access to `self.terms` enters the `__getattr__` fallback,
whose `getattr(self.terms, attr)` re-enters the same unassigned lookup and
never produces a value for any amount of fuel.  Zero arguments, one list,
one set, and two-or-more arguments are the shapes that assign storage. -/
theorem c10_termlist_single_arg_unbound :
    (∀ v : PyVal, termListInit [TLArg.atom v] = TLInitResult.unbound) ∧
    (∀ xs : List PyVal, termListInit [TLArg.pytuple xs] = TLInitResult.unbound) ∧
    (∀ f : Nat, tlGetTerms f none = none) ∧
    termListInit [] = TLInitResult.ok [] ∧
    (∀ xs, termListInit [TLArg.pylist xs] =
      if checkContent xs then TLInitResult.ok xs else TLInitResult.typeError) ∧
    (∀ xs, termListInit [TLArg.pyset xs] =
      if checkContent xs then TLInitResult.ok xs else TLInitResult.typeError) ∧
    (∀ a b rest, termListInit (a :: b :: rest) =
      if (a :: b :: rest).all argIsTerm then TLInitResult.ok ((a :: b :: rest).map argVal)
      else TLInitResult.typeError) := by
  refine ⟨fun v => rfl, fun xs => rfl, ?_, rfl, fun xs => rfl, fun xs => rfl,
    fun a b rest => by cases a <;> rfl⟩
  intro f
  induction f with
  | zero => rfl
  | succ f ih => simpa [tlGetTerms] using ih

/-- C1, amended.  For every forward edge `(T, kind, P)` with
`kind ∈ {is_a, part_of, is_part}` whose parent identifier `P` is present in
the store, a successful adoption pass leaves the primary map unchanged and
makes the term registered under `P` carry the corresponding inverse edge
(`can_be`/`has_part`/`part_of`) holding `T`'s identifier.  (Forward edges
to absent parents are dropped; see the counterexample.) -/
theorem c1_adopt_inverse_present_parent {o o' : Ontology} {k kind inv P : String}
    {ta pa : Addr} {t : TermObj} {vals : List PyVal}
    (ha : adopt o = some o')
    (hk : lookupStr k o.terms = some ta) (ht : heapGet o.heap ta = some t)
    (hkind : (kind, inv) ∈ invTable) (hrel : getRel t kind = some vals)
    (hmem : PyVal.str P ∈ vals) (hp : lookupStr P o.terms = some pa) :
    o'.terms = o.terms ∧
    ∃ pt vs, heapGet o'.heap pa = some pt ∧ getRel pt inv = some vs ∧
      PyVal.str t.id ∈ vs := by
  have ha' : (collect o).bind (fun rels => ofoldlM adoptStep o rels) = some o' := ha
  cases hcol : collect o with
  | none => rw [hcol] at ha'; cases ha'
  | some rels =>
    rw [hcol] at ha'
    simp only [Option.some_bind] at ha'
    have hemem : (PyVal.str P, inv, t.id) ∈ rels :=
      collect_mem hcol hk ht (edgesOf_mem hkind hrel hmem)
    obtain ⟨l1, l2, hsplit⟩ := List.append_of_mem hemem
    subst hsplit
    rw [ofoldlM_append] at ha'
    cases hpre : ofoldlM adoptStep o l1 with
    | none => rw [hpre] at ha'; cases ha'
    | some m1 =>
      rw [hpre] at ha'
      simp only [Option.some_bind] at ha'
      have hm1 : m1.terms = o.terms :=
        ofoldlM_invariant hpre
          (fun s x s' _ hst hP => (adoptStep_terms hst).trans hP) rfl
      have ha'' : (adoptStep m1 (PyVal.str P, inv, t.id)).bind
          (fun m2 => ofoldlM adoptStep m2 l2) = some o' := by
        rw [← ofoldlM_cons]; exact ha'
      cases hstep : adoptStep m1 (PyVal.str P, inv, t.id) with
      | none => rw [hstep] at ha''; cases ha''
      | some m2 =>
        rw [hstep] at ha''
        simp only [Option.some_bind] at ha''
        have hpm1 : lookupStr P m1.terms = some pa := by rw [hm1]; exact hp
        have hq2 := adoptStep_establishes hstep hpm1
        have hqo := ofoldlM_invariant ha''
          (fun s x s' _ hst hP => adoptStep_preserves hst hP) hq2
        have hterms : o'.terms = o.terms := by
          have h2 : m2.terms = m1.terms := adoptStep_terms hstep
          have h3 : o'.terms = m2.terms :=
            ofoldlM_invariant ha''
              (fun s x s' _ hst hP => (adoptStep_terms hst).trans hP) rfl
          rw [h3, h2, hm1]
        exact ⟨hterms, hqo⟩

/-- Witness for C1's amended theorem: on `c4o` (`A is_a B`, `B` present)
adoption records `can_be: [A]` on `B`. -/
theorem c1_adopt_inverse_present_parent_witness :
    adopt c4o = some c4o2 ∧ lookupStr "A" c4o.terms = some 0 ∧
    heapGet c4o.heap 0 = some c4tA ∧ getRel c4tA "is_a" = some [PyVal.str "B"] ∧
    lookupStr "B" c4o.terms = some 1 ∧
    (c4o2.terms = c4o.terms ∧ ∃ pt vs, heapGet c4o2.heap 1 = some pt ∧
      getRel pt "can_be" = some vs ∧ PyVal.str c4tA.id ∈ vs) := by
  refine ⟨rfl, rfl, rfl, rfl, rfl, ?_⟩
  exact @c1_adopt_inverse_present_parent c4o c4o2 "A" "is_a" "can_be" "B" 0 1 c4tA
    [PyVal.str "B"] rfl rfl rfl (by decide) rfl (by decide) rfl

/-- C4, amended.  Whenever `TermList.__init__` succeeds, every stored
element is a Term, and a list or set argument containing a non-Term raises
`TypeError`.  The adoption pass, however, appends inverse-edge endpoints
through the attribute-forwarded raw-list `append`, bypassing
`_check_content`: after adopting `c4o` the `can_be` TermList of `B`
contains the bare identifier string `"A"`, which a direct construction
would have rejected; endpoints become Terms again only at reference
resolution. -/
theorem c4_termlist_check_amended :
    (∀ args ts, termListInit args = TLInitResult.ok ts → checkContent ts = true) ∧
    (∀ xs, checkContent xs = false →
      termListInit [TLArg.pylist xs] = TLInitResult.typeError ∧
      termListInit [TLArg.pyset xs] = TLInitResult.typeError) ∧
    (adopt c4o = some c4o2 ∧ heapGet c4o2.heap 1 = some c4tB ∧
      getRel c4tB "can_be" = some [PyVal.str "A"] ∧
      checkContent [PyVal.str "A"] = false) := by
  refine ⟨?_, ?_, rfl, rfl, rfl, rfl⟩
  · intro args ts h
    match args with
    | [] =>
      injection h with h
      rw [← h]; rfl
    | [TLArg.pylist xs] =>
      rw [show termListInit [TLArg.pylist xs] =
        (if checkContent xs then TLInitResult.ok xs else TLInitResult.typeError)
        from rfl] at h
      by_cases hc : checkContent xs
      · rw [if_pos hc] at h; injection h with h; rw [← h]; exact hc
      · rw [if_neg hc] at h; exact TLInitResult.noConfusion h
    | [TLArg.pyset xs] =>
      rw [show termListInit [TLArg.pyset xs] =
        (if checkContent xs then TLInitResult.ok xs else TLInitResult.typeError)
        from rfl] at h
      by_cases hc : checkContent xs
      · rw [if_pos hc] at h; injection h with h; rw [← h]; exact hc
      · rw [if_neg hc] at h; exact TLInitResult.noConfusion h
    | [TLArg.atom v] => exact TLInitResult.noConfusion h
    | [TLArg.pytuple xs] => exact TLInitResult.noConfusion h
    | a :: b :: rest =>
      rw [termListInit_multi] at h
      by_cases hall : (a :: b :: rest).all argIsTerm
      · rw [if_pos hall] at h
        injection h with h
        rw [← h]
        simp only [List.all_eq_true] at hall
        simp only [checkContent, List.all_eq_true]
        intro v hv
        obtain ⟨arg, harg, hveq⟩ := List.mem_map.mp hv
        have hterm := hall arg harg
        cases arg with
        | atom w =>
          cases w with
          | ref r => rw [← hveq]; rfl
          | str s => simp [argIsTerm] at hterm
        | pylist ys => simp [argIsTerm] at hterm
        | pyset ys => simp [argIsTerm] at hterm
        | pytuple ys => simp [argIsTerm] at hterm
      · rw [if_neg hall] at h
        exact TLInitResult.noConfusion h
  · intro xs hc
    constructor
    · simp [termListInit, hc]
    · simp [termListInit, hc]

/-- Witness for C4's amended theorem: a successful construction from a
list of one Term reference passes the content check. -/
theorem c4_termlist_check_amended_witness :
    termListInit [TLArg.pylist [PyVal.ref 0]] = TLInitResult.ok [PyVal.ref 0] ∧
    checkContent [PyVal.ref 0] = true :=
  ⟨rfl, c4_termlist_check_amended.1 [TLArg.pylist [PyVal.ref 0]] [PyVal.ref 0] rfl⟩

/-- C3.  After the reference-resolution pass, for every term of the store,
the new relations correspond pointwise to the old ones: every endpoint is a
Term reference (`isTerm`), a string identifier present in the primary map
was replaced by a reference to that store's own Term (the registered
address), and a string identifier absent from the primary map was replaced
by a reference to a freshly allocated placeholder `Term(x, '', '')` — id
set, name and description empty, no relations (`resolvesTo`,
`RelsResolve`).  The term's own id, name and description are untouched. -/
theorem c3_reference_resolves_endpoints {o : Ontology} {i : String} {a : Addr}
    {t : TermObj} (hw : wfOnt o = true) (hk : lookupStr i o.terms = some a)
    (ht : heapGet o.heap a = some t) :
    ∃ t', heapGet (reference o).heap a = some t' ∧ t'.id = t.id ∧
      t'.name = t.name ∧ t'.desc = t.desc ∧
      RelsResolve o.terms o.nextAddr (reference o).heap t.relations t'.relations ∧
      ∀ e ∈ t'.relations, ∀ v ∈ e.2, isTerm v = true := by
  obtain ⟨_, hdone⟩ := reference_correct hw
  obtain ⟨t', hg, hid, hname, hdesc, _, _, hrels⟩ :=
    hdone (i, a) (lookupStr_mem hk) t ht
  exact ⟨t', hg, hid, hname, hdesc, hrels, relsResolve_refs hrels⟩

/-- Witness for C3 at `c3o`: `A`'s endpoints are the present `B` and the
absent `X`. -/
theorem c3_reference_resolves_endpoints_witness :
    wfOnt c3o = true ∧ lookupStr "A" c3o.terms = some 0 ∧
    heapGet c3o.heap 0 = some c3tA ∧
    (∃ t', heapGet (reference c3o).heap 0 = some t' ∧ t'.id = c3tA.id ∧
      t'.name = c3tA.name ∧ t'.desc = c3tA.desc ∧
      RelsResolve c3o.terms c3o.nextAddr (reference c3o).heap c3tA.relations
        t'.relations ∧
      ∀ e ∈ t'.relations, ∀ v ∈ e.2, isTerm v = true) :=
  ⟨by decide, rfl, rfl,
    @c3_reference_resolves_endpoints c3o "A" 0 c3tA (by decide) rfl rfl⟩

/-- C5.  Reference resolution is idempotent: a second run over an
already-resolved store is a no-op — every endpoint already is a Term
reference, so each per-term step resolves to the identity and neither the
heap, the allocation counter, nor the primary map changes. -/
theorem c5_reference_idempotent {o : Ontology} (hw : wfOnt o = true) :
    reference (reference o) = reference o := by
  obtain ⟨hwfs, hdone⟩ := reference_correct hw
  obtain ⟨_, _, _, _, hlive⟩ := wfOnt_unpack hw
  have hsteps : ∀ e ∈ (reference o).terms,
      referenceStep (reference o).terms
        ((reference o).heap, (reference o).nextAddr) e =
      ((reference o).heap, (reference o).nextAddr) := by
    intro e he
    refine referenceStep_id hwfs.2.1 ?_
    intro t hgt r hr v hv
    have he' : e ∈ o.terms := he
    obtain ⟨t0, hg0, _⟩ := hlive e he'
    obtain ⟨t', hg', _, _, _, _, _, hrels⟩ := hdone e he' t0 hg0
    have htt : t = t' := by
      rw [hgt] at hg'
      injection hg'
    exact relsResolve_refs hrels r (htt ▸ hr) v hv
  have hfold : (reference o).terms.foldl (referenceStep (reference o).terms)
      ((reference o).heap, (reference o).nextAddr) =
      ((reference o).heap, (reference o).nextAddr) :=
    foldl_referenceStep_id _ hsteps
  have hassemble : reference (reference o) = { reference o with
      heap := ((reference o).terms.foldl (referenceStep (reference o).terms)
        ((reference o).heap, (reference o).nextAddr)).1,
      nextAddr := ((reference o).terms.foldl (referenceStep (reference o).terms)
        ((reference o).heap, (reference o).nextAddr)).2 } := rfl
  rw [hassemble, hfold]

/-- Witness for C5 at `c3o`. -/
theorem c5_reference_idempotent_witness :
    wfOnt c3o = true ∧ reference (reference c3o) = reference c3o :=
  ⟨by decide, c5_reference_idempotent (by decide)⟩

/-- C6, counterexample.  The dereferenced JSON serialization renders the
description field under the key `desc` (the attribute name in
`Term.__deref__`), not `description`: on the resolved one-term store `c6o`
the field list of the term object is `desc, id, name, other, relations` and
no field named `description` exists, refuting "exactly the fields
{id, name, other, description, relations}" read literally.  (All other
parts of the claim hold; see the amended theorem.) -/
theorem c6_json_field_named_desc :
    ontologyJson c6o = some (Json.obj
      [("A", Json.obj
        [("desc", Json.str "d"), ("id", Json.str "A"), ("name", Json.str "a"),
         ("other", Json.obj [("k", Json.str "v")]),
         ("relations", Json.obj [("is_a", Json.arr [Json.str "A"])])])]) ∧
    "description" ∉ (["desc", "id", "name", "other", "relations"] : List String) := by
  exact ⟨rfl, by decide⟩

/-- C6, amended.  For a resolved store, the dereferenced JSON serialization
is an object keyed by identifier (keys sorted) whose value for each term
has exactly the fields `desc`, `id`, `name`, `other`, `relations` (the
description field is serialized under the key `desc`), where `relations`
maps each relation kind to the array of endpoint identifiers only — a Term
object is never embedded, even for a term that is its own ancestor. -/
theorem c6_json_shape_amended {o : Ontology} (hr : resolvedOnt o = true) :
    ∃ entries, ontologyJson o = some (Json.obj entries) ∧
      List.Forall₂ (EntryJson o.heap) (sortPairs o.terms) entries := by
  have hres := resolvedOnt_unpack hr
  have hsome : ∀ e ∈ sortPairs o.terms, (entryJson o.heap e).isSome := by
    intro e he
    obtain ⟨t, hg, hvt⟩ := hres e (mem_sortPairs.mp he)
    obtain ⟨rels, hdj, _⟩ := derefJson_corr hvt
    simp [entryJson, hg, hdj]
  obtain ⟨entries, hentries⟩ := omapM_some_of_forall hsome
  refine ⟨entries, by simp [ontologyJson, hentries], ?_⟩
  exact (omapM_forall₂ hentries).imp fun _ _ hf => entryJson_corr hf

/-- Witness for C6's amended theorem at `c6o`, a store whose only term is
its own ancestor (`A is_a A`). -/
theorem c6_json_shape_amended_witness :
    resolvedOnt c6o = true ∧
    (∃ entries, ontologyJson c6o = some (Json.obj entries) ∧
      List.Forall₂ (EntryJson c6o.heap) (sortPairs c6o.terms) entries) :=
  ⟨by decide, c6_json_shape_amended (by decide)⟩

/-- C1, counterexample.  The claim says the inverse edge is recorded "by
identifier regardless of whether P is present in the store".  On `c1o`
(single term `A` with `is_a: [B]`, `B` absent) the second loop of `_adopt`
guards with `if parent in self`, so the collected tuple is dropped and the
store is returned completely unchanged: no term anywhere carries a
`can_be` edge to `A`. -/
theorem c1_adopt_drops_absent_parent :
    adopt c1o = some c1o ∧ lookupStr "B" c1o.terms = none ∧
    (∀ p ∈ c1o.heap, getRel p.2 "can_be" = none) := by
  refine ⟨rfl, rfl, ?_⟩
  decide

/-- C4, counterexample.  The claim says every element of a TermList stored
in a term's relations remains a Term after the adoption pass appends
inverse-edge endpoints.  Adoption appends `term.id` — a bare string —
through `TermList.append`, which is forwarded by `__getattr__` to the raw
underlying list and bypasses `_check_content`: after adopting `c4o`, the
`can_be` list of `B` holds the non-Term string `"A"`. -/
theorem c4_adoption_appends_bare_string :
    adopt c4o = some c4o2 ∧
    heapGet c4o2.heap 1 = some c4tB ∧
    getRel c4tB "can_be" = some [PyVal.str "A"] ∧
    isTerm (PyVal.str "A") = false := by
  exact ⟨rfl, rfl, rfl, rfl⟩

end Pronto
